import Mathlib

/-!
Shallow embedding of the 2048 engine from `src/game.rs` (repository r2048).

Modelling conventions:
* `i32` tile values are modelled as `Int` and `u32` score as `Nat`,
  with the machine arithmetic made explicit where the source computes:
  the merge's `tile_val + 1` wraps two's-complement into the i32 range
  (`wrap32`), so at `tile_val = i32::MAX` the wrapped value is negative
  and `set`'s assertion fires — the program panics there in both build
  profiles; the score update `1u32 << (tile_val + 1)` masks its shift
  amount by 31 and the `u32` addition reduces mod `2^32`, the
  release-profile (wrapping) semantics — a debug build instead panics
  at a shift amount ≥ 32, so at such sites the release value is
  computed here while a no-failure claim is still refuted by the sites
  that fail in both profiles.
* Rust panics (the `assert!` in `Board::set`, out-of-bounds indexing,
  `Option::unwrap`, `slice::chunks(0)`) are modelled by `Option`:
  `none` is a panic.
* The unbounded `loop` of `do_shift` and the `while` worklist of
  `is_game_over` are written with an explicit fuel argument so that the
  definitions stay structurally recursive (hence kernel-computable);
  the wrappers supply a provably sufficient fuel, and running out of
  fuel yields `none`, so no behaviour is invented.
* `shift`/`do_shift` additionally return the list of merge events
  `(from, to, value)` performed, as ghost instrumentation: the board
  and trace components are exactly the Rust computation, and the merge
  list records the arguments of the `score` update of `do_shift`.
-/

set_option maxHeartbeats 1000000

namespace R2048

/-- The four move directions (`Direction` in src/game.rs). -/
inductive Direction where
  | up
  | down
  | left
  | right
deriving DecidableEq, Repr

/-- `type Tile = i32`.  The alias is kept for reference; the
definitions below write `Int` directly. -/
abbrev Tile := Int

/-- `type Coordinate = (usize, usize)` — (row, column). -/
abbrev Coordinate := Nat × Nat

/-- `type Trace = (Coordinate, Coordinate)` — (from, to). -/
abbrev Trace := Coordinate × Coordinate

/-- Ghost record of one merge event: (from, to, pre-merge stored value). -/
abbrev Merge := Coordinate × Coordinate × Int

/-- `const BLANK: i32 = 0`. -/
def BLANK : Int := 0

/-- Two's-complement wrap into the `i32` range: the value the release
profile computes for an overflowing `i32` addition (`tile_val + 1`).
On `[-2^31, 2^31)` it is the identity; at `i32::MAX + 1` it is
`-2^31`. -/
def wrap32 (x : Int) : Int :=
  (x + 2 ^ 31) % 2 ^ 32 - 2 ^ 31

/-- `struct Board { size, tiles, score }`. -/
structure Board where
  size : Nat
  tiles : List (List Int)
  score : Nat
deriving DecidableEq, Repr

/-- Helper for `chunks`: produces chunks of `n + 1` elements; the fuel
is the length of the list, which bounds the number of chunks. -/
def chunksGo (n : Nat) : Nat → List Int → List (List Int)
  | _, [] => []
  | 0, _ :: _ => []
  | fuel + 1, x :: xs => (x :: xs).take (n + 1) :: chunksGo n fuel ((x :: xs).drop (n + 1))

/-- Rust `slice::chunks(n)` (for `n ≥ 1`): consecutive chunks of `n`
elements, the last chunk possibly shorter.  `Board::new` guards the
`n = 0` case (where Rust panics) before calling this. -/
def chunks (n : Nat) (l : List Int) : List (List Int) :=
  chunksGo (n - 1) l.length l

/-- `Board::new(size, tiles, score)`.  With `Some(data)` the rows are
`data.chunks(size)` — no length validation happens; `chunks` panics
(`none`) only when `size = 0`. -/
def Board.new (size : Nat) (tiles : Option (List Int)) (score : Nat) : Option Board :=
  match tiles with
  | some data =>
      if size = 0 then none
      else some { size := size, tiles := chunks size data, score := score }
  | none =>
      some { size := size, tiles := List.replicate size (List.replicate size BLANK), score := score }

/-- `Board::get`: `self.tiles.get(pos.0)?.get(pos.1)`. -/
def Board.get (b : Board) (pos : Coordinate) : Option Int :=
  b.tiles[pos.1]?.bind fun row => row[pos.2]?

/-- `Board::set`: asserts `value >= 0` and writes `tiles[pos.0][pos.1]`;
a failed assertion or an out-of-bounds index is a panic (`none`). -/
def Board.set (b : Board) (pos : Coordinate) (value : Int) : Option Board :=
  if value < 0 then none
  else
    match b.tiles[pos.1]? with
    | none => none
    | some row =>
        match row[pos.2]? with
        | none => none
        | some _ => some { b with tiles := b.tiles.set pos.1 (row.set pos.2 value) }

/-- `Board::next`: the in-bounds neighbour of `pos` in direction `d`. -/
def Board.next (b : Board) (pos : Coordinate) (d : Direction) : Option Coordinate :=
  match d with
  | .up => if 1 ≤ pos.1 then some (pos.1 - 1, pos.2) else none
  | .down => if pos.1 + 1 < b.size then some (pos.1 + 1, pos.2) else none
  | .left => if 1 ≤ pos.2 then some (pos.1, pos.2 - 1) else none
  | .right => if pos.2 + 1 < b.size then some (pos.1, pos.2 + 1) else none

/-- The worklist loop of `Core::is_game_over`: pops the front of the
queue, returns `false` on a blank cell or an equal Right/Down
neighbour, otherwise enqueues the in-bounds Right/Down neighbours.
Fuel exhaustion is `none` (the wrapper supplies sufficient fuel). -/
def overQueue (b : Board) : Nat → List Coordinate → Option Bool
  | 0, _ => none
  | _ + 1, [] => some true
  | fuel + 1, current :: rest =>
      if b.get current = some BLANK then some false
      else
        match b.next current .right with
        | some nr =>
            if b.get current = b.get nr then some false
            else
              match b.next current .down with
              | some nd =>
                  if b.get current = b.get nd then some false
                  else overQueue b fuel (rest ++ [nr, nd])
              | none => overQueue b fuel (rest ++ [nr])
        | none =>
            match b.next current .down with
            | some nd =>
                if b.get current = b.get nd then some false
                else overQueue b fuel (rest ++ [nd])
            | none => overQueue b fuel rest

/-- `Core::is_game_over`: worklist search seeded at `(0, 0)`. -/
def is_game_over (b : Board) : Option Bool :=
  overQueue b (3 ^ (2 * b.size) + 1) [(0, 0)]

/-- Result of a (partial) shift: board, traces, and ghost merge list. -/
abbrev ShiftState := Board × List Trace × List Merge

/-- The `loop` body of `Core::do_shift`, walking from `tile` toward
`d`.  Each iteration needs one unit of fuel; the walk length is
bounded by the board size, and `do_shift` supplies `size + 1` fuel.
The merge branch performs the source's 32-bit arithmetic explicitly:
`tile_val + 1` is the `i32` sum `wrap32 (tile_val + 1)` (at
`i32::MAX` it wraps negative and `set`'s assertion panics, as the
program does in both profiles), and `score += 1u32 << (tile_val + 1)`
masks the shift amount by 31 and reduces the `u32` sum mod `2^32`
(release semantics; a debug build panics where the mask acts). -/
def do_shift_loop (d : Direction) :
    Nat → Board → Coordinate → Bool → List Trace → List Merge → Option ShiftState
  | 0, _, _, _, _, _ => none
  | fuel + 1, b, tile, no_swapped, traces, merges =>
      match b.next tile d with
      | none => some (b, traces, merges)
      | some next_tile =>
          match b.get tile, b.get next_tile with
          | some tile_val, some next_tile_val =>
              if tile_val ≠ BLANK then
                if next_tile_val = BLANK then
                  match b.set next_tile tile_val with
                  | none => none
                  | some b1 =>
                      match b1.set tile BLANK with
                      | none => none
                      | some b2 =>
                          if no_swapped then
                            match traces.getLast? with
                            | none => none
                            | some last =>
                                do_shift_loop d fuel b2 next_tile true
                                  (traces.dropLast ++ [(last.1, next_tile)]) merges
                          else
                            do_shift_loop d fuel b2 next_tile true
                              (traces ++ [(tile, next_tile)]) merges
                else if tile_val = next_tile_val then
                  match b.set next_tile (wrap32 (tile_val + 1)) with
                  | none => none
                  | some b1 =>
                      match b1.set tile BLANK with
                      | none => none
                      | some b2 =>
                          do_shift_loop d fuel
                            { b2 with score :=
                                (b2.score + 2 ^ ((wrap32 (tile_val + 1)).toNat % 32)) % 2 ^ 32 }
                            next_tile false
                            (traces ++ [(tile, next_tile)])
                            (merges ++ [(tile, next_tile, tile_val)])
                else
                  do_shift_loop d fuel b next_tile no_swapped traces merges
              else
                do_shift_loop d fuel b next_tile no_swapped traces merges
          | _, _ => none

/-- `Core::do_shift(board, tile, direction)`. -/
def do_shift (b : Board) (tile : Coordinate) (d : Direction) : Option ShiftState :=
  do_shift_loop d (b.size + 1) b tile false [] []

/-- The order in which `Core::shift` feeds starting coordinates to
`do_shift`: lanes from the destination edge inward. -/
def sweep (n : Nat) (d : Direction) : List Coordinate :=
  match d with
  | .right => (List.range n).flatMap fun x => (List.range n).reverse.map fun y => (x, y)
  | .down => (List.range n).flatMap fun y => (List.range n).reverse.map fun x => (x, y)
  | .up => (List.range n).flatMap fun y => (List.range n).map fun x => (x, y)
  | .left => (List.range n).flatMap fun x => (List.range n).map fun y => (x, y)

/-- The fold of `Core::shift` over the sweep order, threading the board
and appending traces and merges. -/
def shiftFold (d : Direction) : List Coordinate → ShiftState → Option ShiftState
  | [], acc => some acc
  | c :: cs, (b, tr, ms) =>
      match do_shift b c d with
      | none => none
      | some (b', t, m) => shiftFold d cs (b', tr ++ t, ms ++ m)

/-- `Core::shift(board, direction)`: board after the move, the traces,
and (ghost) the merge events. -/
def shift (b : Board) (d : Direction) : Option ShiftState :=
  shiftFold d (sweep b.size d) (b, [], [])

/-- The board is a well-formed `size × size` grid. -/
def wellFormed (b : Board) : Prop :=
  b.tiles.length = b.size ∧ ∀ row ∈ b.tiles, row.length = b.size

/-- Every cell of the board is non-negative. -/
def nonneg (b : Board) : Prop :=
  ∀ row ∈ b.tiles, ∀ v ∈ row, 0 ≤ v

instance (b : Board) : Decidable (wellFormed b) := by
  unfold wellFormed; infer_instance

instance (b : Board) : Decidable (nonneg b) := by
  unfold nonneg; infer_instance

/-- Cell `c` lies inside the `size × size` square. -/
def inB (b : Board) (c : Coordinate) : Prop :=
  c.1 < b.size ∧ c.2 < b.size

/-! ### Basic lemmas about `Board.get`, `Board.set`, `Board.next` -/

theorem getElem?_some_mem {α : Type} {l : List α} {i : Nat} {a : α}
    (h : l[i]? = some a) : a ∈ l ∧ i < l.length := by
  obtain ⟨hlt, he⟩ := List.getElem?_eq_some.1 h
  exact ⟨he ▸ List.getElem_mem hlt, hlt⟩

theorem get_some_of_inB {b : Board} (hwf : wellFormed b) {c : Coordinate} (hc : inB b c) :
    ∃ v, b.get c = some v := by
  obtain ⟨hlen, hrows⟩ := hwf
  obtain ⟨h1, h2⟩ := hc
  have h1' : c.1 < b.tiles.length := by omega
  have hrow : b.tiles[c.1]? = some b.tiles[c.1] := List.getElem?_eq_getElem h1'
  have hmem : b.tiles[c.1] ∈ b.tiles := List.getElem_mem h1'
  have h2' : c.2 < (b.tiles[c.1]).length := by rw [hrows _ hmem]; exact h2
  exact ⟨(b.tiles[c.1])[c.2], by
    simp [Board.get, hrow, List.getElem?_eq_getElem h2']⟩

theorem inB_of_get_some {b : Board} (hwf : wellFormed b) {c : Coordinate} {v : Int}
    (h : b.get c = some v) : inB b c := by
  simp only [Board.get, Option.bind_eq_some] at h
  obtain ⟨row, hrow, hv⟩ := h
  obtain ⟨hmem, h1⟩ := getElem?_some_mem hrow
  obtain ⟨-, h2⟩ := getElem?_some_mem hv
  exact ⟨hwf.1 ▸ h1, (hwf.2 row hmem) ▸ h2⟩

theorem get_nonneg {b : Board} (hnn : nonneg b) {c : Coordinate} {v : Int}
    (h : b.get c = some v) : 0 ≤ v := by
  simp only [Board.get, Option.bind_eq_some] at h
  obtain ⟨row, hrow, hv⟩ := h
  obtain ⟨hmemr, -⟩ := getElem?_some_mem hrow
  obtain ⟨hmemv, -⟩ := getElem?_some_mem hv
  exact hnn row hmemr v hmemv

/-- Full characterisation of a successful `Board.set`. -/
theorem set_some_spec {b : Board} {p : Coordinate} {v : Int} {b' : Board}
    (h : b.set p v = some b') :
    b'.size = b.size ∧ b'.score = b.score ∧ 0 ≤ v ∧
    b'.tiles.length = b.tiles.length ∧
    (∀ c : Coordinate, b'.get c = if c = p then some v else b.get c) := by
  simp only [Board.set] at h
  by_cases hv : v < 0
  · rw [if_pos hv] at h; exact absurd h (by simp)
  · rw [if_neg hv] at h
    split at h
    · exact absurd h (by simp)
    · rename_i row hrow
      split at h
      · exact absurd h (by simp)
      · rename_i w hw
        obtain rfl := Option.some.inj h
        obtain ⟨-, h1⟩ := getElem?_some_mem hrow
        obtain ⟨-, h2⟩ := getElem?_some_mem hw
        refine ⟨rfl, rfl, by exact Int.not_lt.mp hv, by simp, ?_⟩
        intro c
        by_cases hc1 : c.1 = p.1
        · by_cases hc2 : c.2 = p.2
          · have hcp : c = p := Prod.ext hc1 hc2
            subst hcp
            have e1 : (b.tiles.set c.1 (row.set c.2 v))[c.1]? = some (row.set c.2 v) :=
              List.getElem?_set_self h1
            have e2 : (row.set c.2 v)[c.2]? = some v :=
              List.getElem?_set_self h2
            simp [Board.get, e1, e2]
          · have hcp : c ≠ p := fun he => hc2 (by rw [he])
            have e1 : (b.tiles.set p.1 (row.set p.2 v))[c.1]? = some (row.set p.2 v) := by
              rw [hc1]; exact List.getElem?_set_self h1
            have e2 : (row.set p.2 v)[c.2]? = row[c.2]? :=
              List.getElem?_set_ne (fun he => hc2 he.symm)
            have e3 : b.tiles[c.1]? = some row := by rw [hc1]; exact hrow
            simp [Board.get, e1, e2, e3, if_neg hcp]
        · have hcp : c ≠ p := fun he => hc1 (by rw [he])
          have e1 : (b.tiles.set p.1 (row.set p.2 v))[c.1]? = b.tiles[c.1]? :=
            List.getElem?_set_ne (fun he => hc1 he.symm)
          simp [Board.get, e1, if_neg hcp]

/-- A `set` succeeds exactly on a non-negative value at an existing cell. -/
theorem set_isSome_iff {b : Board} {p : Coordinate} {v : Int} :
    (b.set p v).isSome ↔ 0 ≤ v ∧ (b.get p).isSome := by
  simp only [Board.set, Board.get]
  by_cases hv : v < 0
  · simp only [if_pos hv]
    constructor
    · intro h; exact absurd h (by simp)
    · rintro ⟨h0, -⟩; exact absurd hv (Int.not_lt.mpr h0)
  · simp only [if_neg hv]
    have h0 : 0 ≤ v := Int.not_lt.mp hv
    cases hrow : b.tiles[p.1]? with
    | none => simp [hrow, h0]
    | some row =>
        simp only [hrow]
        cases hw : row[p.2]? with
        | none => simp [hw, h0]
        | some w => simp [hw, h0]

theorem set_wellFormed {b : Board} {p : Coordinate} {v : Int} {b' : Board}
    (hwf : wellFormed b) (h : b.set p v = some b') : wellFormed b' := by
  simp only [Board.set] at h
  split at h
  · exact absurd h (by simp)
  · split at h
    · exact absurd h (by simp)
    · rename_i row hrow
      split at h
      · exact absurd h (by simp)
      · obtain rfl := Option.some.inj h
        obtain ⟨hmem, h1⟩ := getElem?_some_mem hrow
        refine ⟨by simpa using hwf.1, ?_⟩
        intro r hr
        rcases List.mem_or_eq_of_mem_set hr with hmem2 | hset
        · exact hwf.2 r hmem2
        · subst hset
          simpa using hwf.2 row hmem

theorem set_nonneg {b : Board} {p : Coordinate} {v : Int} {b' : Board}
    (hnn : nonneg b) (h : b.set p v = some b') : nonneg b' := by
  simp only [Board.set] at h
  by_cases hv : v < 0
  · rw [if_pos hv] at h; exact absurd h (by simp)
  · rw [if_neg hv] at h
    split at h
    · exact absurd h (by simp)
    · rename_i row hrow
      split at h
      · exact absurd h (by simp)
      · obtain rfl := Option.some.inj h
        obtain ⟨hmem, h1⟩ := getElem?_some_mem hrow
        intro r hr w hw
        rcases List.mem_or_eq_of_mem_set hr with hmem2 | hset
        · exact hnn r hmem2 w hw
        · subst hset
          rcases List.mem_or_eq_of_mem_set hw with hmem3 | hval
          · exact hnn row hmem w hmem3
          · exact hval ▸ Int.not_lt.mp hv

/-- Every cell value of the board is at most `X`. -/
def valBound (b : Board) (X : Int) : Prop :=
  ∀ row ∈ b.tiles, ∀ v ∈ row, v ≤ X

instance (b : Board) (X : Int) : Decidable (valBound b X) := by
  unfold valBound; infer_instance

theorem valBound_mono {b : Board} {X Y : Int} (h : valBound b X) (hXY : X ≤ Y) :
    valBound b Y :=
  fun r hr v hv => le_trans (h r hr v hv) hXY

theorem get_valBound {b : Board} {X : Int} (hvb : valBound b X) {c : Coordinate} {v : Int}
    (h : b.get c = some v) : v ≤ X := by
  simp only [Board.get, Option.bind_eq_some] at h
  obtain ⟨row, hrow, hv⟩ := h
  obtain ⟨hmemr, -⟩ := getElem?_some_mem hrow
  obtain ⟨hmemv, -⟩ := getElem?_some_mem hv
  exact hvb row hmemr v hmemv

theorem set_valBound {b : Board} {p : Coordinate} {v X : Int} {b' : Board}
    (hvb : valBound b X) (hvX : v ≤ X) (h : b.set p v = some b') : valBound b' X := by
  simp only [Board.set] at h
  by_cases hv0 : v < 0
  · rw [if_pos hv0] at h; exact absurd h (by simp)
  · rw [if_neg hv0] at h
    split at h
    · exact absurd h (by simp)
    · rename_i row hrow
      split at h
      · exact absurd h (by simp)
      · obtain rfl := Option.some.inj h
        obtain ⟨hmem, h1⟩ := getElem?_some_mem hrow
        intro r hr w hw
        rcases List.mem_or_eq_of_mem_set hr with hmem2 | hset
        · exact hvb r hmem2 w hw
        · subst hset
          rcases List.mem_or_eq_of_mem_set hw with hmem3 | hval
          · exact hvb row hmem w hmem3
          · exact hval ▸ hvX

/-- `wrap32` is the identity on the `i32` range. -/
theorem wrap32_eq_self {x : Int} (h1 : -2147483648 ≤ x) (h2 : x ≤ 2147483647) :
    wrap32 x = x := by
  have h31 : (2 : Int) ^ 31 = 2147483648 := by norm_num
  have h32 : (2 : Int) ^ 32 = 4294967296 := by norm_num
  have he : (x + 2 ^ 31) % 2 ^ 32 = x + 2 ^ 31 :=
    Int.emod_eq_of_lt (by omega) (by omega)
  simp only [wrap32, he]
  omega

/-- Number of remaining steps toward the `d` edge; strictly decreases
along `Board.next`. -/
def stepsLeft (d : Direction) (n : Nat) (c : Coordinate) : Nat :=
  match d with
  | .right => n - 1 - c.2
  | .down => n - 1 - c.1
  | .left => c.2
  | .up => c.1

theorem next_stepsLeft {b : Board} {c n' : Coordinate} {d : Direction}
    (h : b.next c d = some n') :
    stepsLeft d b.size n' < stepsLeft d b.size c := by
  cases d <;> simp only [Board.next] at h <;> split at h <;>
    first
      | exact Option.noConfusion h
      | (cases h; simp only [stepsLeft]; omega)

theorem next_inB {b : Board} {c n' : Coordinate} {d : Direction}
    (hc : inB b c) (h : b.next c d = some n') : inB b n' := by
  obtain ⟨h1, h2⟩ := hc
  cases d <;> simp only [Board.next] at h <;> split at h <;>
    first
      | exact Option.noConfusion h
      | (cases h; exact ⟨by omega, by omega⟩)

/-- The lane coordinate that a walk in direction `d` never changes
(the row for Left/Right, the column for Up/Down). -/
def ortho (d : Direction) (c : Coordinate) : Nat :=
  match d with
  | .left | .right => c.1
  | .up | .down => c.2

/-- Progress of `c` toward the `d` edge (strictly increases along
`Board.next`). -/
def prog (d : Direction) (n : Nat) (c : Coordinate) : Nat :=
  match d with
  | .right => c.2
  | .down => c.1
  | .left => n - c.2
  | .up => n - c.1

theorem next_ortho {b : Board} {c n' : Coordinate} {d : Direction}
    (h : b.next c d = some n') : ortho d n' = ortho d c := by
  cases d <;> simp only [Board.next] at h <;> split at h <;>
    first
      | exact Option.noConfusion h
      | (cases h; rfl)

theorem next_prog {b : Board} {c n' : Coordinate} {d : Direction}
    (hc : inB b c) (h : b.next c d = some n') :
    prog d b.size c < prog d b.size n' := by
  obtain ⟨h1, h2⟩ := hc
  cases d <;> simp only [Board.next] at h <;> split at h <;>
    first
      | exact Option.noConfusion h
      | (cases h; simp only [prog]; omega)

theorem next_stepsLeft_succ {b : Board} {c n' : Coordinate} {d : Direction}
    (h : b.next c d = some n') :
    stepsLeft d b.size c = stepsLeft d b.size n' + 1 := by
  cases d <;> simp only [Board.next] at h <;> split at h <;>
    first
      | exact Option.noConfusion h
      | (cases h; simp only [stepsLeft]; omega)

theorem next_ne {b : Board} {c n' : Coordinate} {d : Direction}
    (hc : inB b c) (h : b.next c d = some n') : n' ≠ c := by
  intro he
  have := next_prog hc h
  rw [he] at this
  omega

/-- Geometric soundness of one trace: same lane, strict progress
toward `d`, both endpoints inside the `n × n` square. -/
def traceOk (d : Direction) (n : Nat) (t : Trace) : Prop :=
  ortho d t.1 = ortho d t.2 ∧ prog d n t.1 < prog d n t.2 ∧
  t.1.1 < n ∧ t.1.2 < n ∧ t.2.1 < n ∧ t.2.2 < n

/-- Measure of a trace list used to show that a mutating step changes
the list: (length, progress of the last destination). -/
def kkey (d : Direction) (n : Nat) (tr : List Trace) : Nat × Nat :=
  (tr.length,
   match tr.getLast? with
   | none => 0
   | some t => prog d n t.2 + 1)

def keyLt (a b : Nat × Nat) : Prop :=
  a.1 < b.1 ∨ (a.1 = b.1 ∧ a.2 < b.2)

def keyLe (a b : Nat × Nat) : Prop :=
  a.1 < b.1 ∨ (a.1 = b.1 ∧ a.2 ≤ b.2)

theorem keyLe_refl (a : Nat × Nat) : keyLe a a := by
  simp [keyLe]

theorem keyLe_of_lt {a b : Nat × Nat} (h : keyLt a b) : keyLe a b := by
  simp only [keyLt, keyLe] at *; omega

theorem keyLe_trans {a b c : Nat × Nat} (h1 : keyLe a b) (h2 : keyLe b c) : keyLe a c := by
  simp only [keyLe] at *; omega

theorem keyLt_of_lt_of_le {a b c : Nat × Nat} (h1 : keyLt a b) (h2 : keyLe b c) : keyLt a c := by
  simp only [keyLt, keyLe] at *; omega

theorem keyLt_ne {a b : Nat × Nat} (h : keyLt a b) : a ≠ b := by
  rintro rfl
  simp only [keyLt] at h; omega

/-! ### The slide potential function -/

/-- The value stored at cell `c` (0 outside the grid). -/
def val (b : Board) (c : Coordinate) : Int :=
  (b.tiles.getD c.1 []).getD c.2 0

theorem val_of_get {b : Board} {c : Coordinate} {v : Int}
    (h : b.get c = some v) : val b c = v := by
  simp only [Board.get, Option.bind_eq_some] at h
  obtain ⟨row, hrow, hv⟩ := h
  obtain ⟨-, h1⟩ := getElem?_some_mem hrow
  obtain ⟨-, h2⟩ := getElem?_some_mem hv
  simp only [val, List.getD_eq_getElem?_getD, hrow, Option.getD_some]
  rw [List.getElem?_eq_getElem h2] at hv ⊢
  exact Option.some.inj hv

theorem set_val {b : Board} {p : Coordinate} {v : Int} {b' : Board}
    (h : b.set p v = some b') (c : Coordinate) :
    val b' c = if c = p then v else val b c := by
  simp only [Board.set] at h
  by_cases hv : v < 0
  · rw [if_pos hv] at h; exact absurd h (by simp)
  · rw [if_neg hv] at h
    split at h
    · exact absurd h (by simp)
    · rename_i row hrow
      split at h
      · exact absurd h (by simp)
      · obtain rfl := Option.some.inj h
        obtain ⟨-, h1⟩ := getElem?_some_mem hrow
        obtain ⟨-, h2⟩ := getElem?_some_mem ‹row[p.2]? = some _›
        by_cases hc1 : c.1 = p.1
        · by_cases hc2 : c.2 = p.2
          · have hcp : c = p := Prod.ext hc1 hc2
            subst hcp
            simp only [if_pos rfl, val, List.getD_eq_getElem?_getD]
            rw [List.getElem?_set_self (by simpa using h1)]
            simp only [Option.getD_some]
            rw [List.getElem?_set_self (by simpa using h2)]
            rfl
          · have hcp : c ≠ p := fun he => hc2 (by rw [he])
            simp only [if_neg hcp, val, List.getD_eq_getElem?_getD, hc1]
            rw [List.getElem?_set_self (by simpa using h1), hrow]
            simp only [Option.getD_some]
            rw [List.getElem?_set_ne (fun he => hc2 he.symm)]
        · have hcp : c ≠ p := fun he => hc1 (by rw [he])
          simp only [if_neg hcp, val, List.getD_eq_getElem?_getD]
          rw [List.getElem?_set_ne (fun he => hc1 he.symm)]

theorem set_inB {b : Board} {p : Coordinate} {v : Int} {b' : Board}
    (hwf : wellFormed b) (h : b.set p v = some b') : inB b p := by
  have hs : (b.set p v).isSome := by rw [h]; rfl
  obtain ⟨-, hg⟩ := set_isSome_iff.1 hs
  obtain ⟨w, hw⟩ := Option.isSome_iff_exists.1 hg
  exact inB_of_get_some hwf hw

/-- Sum of distances to the `d` edge over the occupied cells: a slide
decreases it by one, a merge by at least one, and no step increases it. -/
def phi (d : Direction) (b : Board) : Nat :=
  ∑ x ∈ Finset.range b.size ×ˢ Finset.range b.size,
    if val b x ≠ 0 then stepsLeft d b.size x else 0

theorem phi_congr {d : Direction} {b b' : Board}
    (hs : b'.size = b.size) (ht : b'.tiles = b.tiles) : phi d b' = phi d b := by
  simp only [phi, val, hs, ht]

theorem sum_pointwise_update {s : Finset Coordinate} {f g : Coordinate → Nat} {p : Coordinate}
    (hp : p ∈ s) (hfg : ∀ x ∈ s, x ≠ p → f x = g x) :
    (∑ x ∈ s, f x) + g p = (∑ x ∈ s, g x) + f p := by
  rw [← Finset.add_sum_erase s f hp, ← Finset.add_sum_erase s g hp]
  have he : ∑ x ∈ s.erase p, f x = ∑ x ∈ s.erase p, g x :=
    Finset.sum_congr rfl
      (fun x hx => hfg x (Finset.mem_of_mem_erase hx) (Finset.ne_of_mem_erase hx))
  omega

/-- Effect of one `set` on the potential. -/
theorem phi_set {d : Direction} {b : Board} {p : Coordinate} {v : Int} {b' : Board}
    (hwf : wellFormed b) (h : b.set p v = some b') :
    phi d b' + (if val b p ≠ 0 then stepsLeft d b.size p else 0)
      = phi d b + (if v ≠ 0 then stepsLeft d b.size p else 0) := by
  have hsz : b'.size = b.size := (set_some_spec h).1
  have hp : inB b p := set_inB hwf h
  have hmem : p ∈ Finset.range b.size ×ˢ Finset.range b.size := by
    rw [Finset.mem_product, Finset.mem_range, Finset.mem_range]
    exact hp
  have hphi' : phi d b' =
      ∑ x ∈ Finset.range b.size ×ˢ Finset.range b.size,
        if val b' x ≠ 0 then stepsLeft d b.size x else 0 := by
    rw [phi, hsz]
  rw [hphi']
  have hupd := set_val h
  have hupdp : val b' p = v := by rw [hupd p]; exact if_pos rfl
  have key :
      (∑ x ∈ Finset.range b.size ×ˢ Finset.range b.size,
          if val b' x ≠ 0 then stepsLeft d b.size x else 0)
        + (if val b p ≠ 0 then stepsLeft d b.size p else 0)
      = (∑ x ∈ Finset.range b.size ×ˢ Finset.range b.size,
            if val b x ≠ 0 then stepsLeft d b.size x else 0)
        + (if val b' p ≠ 0 then stepsLeft d b.size p else 0) :=
    sum_pointwise_update hmem (fun x _ hx => by
      show (if val b' x ≠ 0 then stepsLeft d b.size x else 0)
          = (if val b x ≠ 0 then stepsLeft d b.size x else 0)
      rw [hupd x, if_neg hx])
  rw [hupdp] at key
  simp only [phi]
  omega

theorem inB_of_size_eq {b b' : Board} {c : Coordinate}
    (h : b'.size = b.size) (hc : inB b c) : inB b' c :=
  ⟨h ▸ hc.1, h ▸ hc.2⟩

theorem set_score {b : Board} {p : Coordinate} {v : Int} {b' : Board}
    (h : b.set p v = some b') : b'.score = b.score := (set_some_spec h).2.1

theorem set_size {b : Board} {p : Coordinate} {v : Int} {b' : Board}
    (h : b.set p v = some b') : b'.size = b.size := (set_some_spec h).1

/-- Total score contributed by a list of merge events. -/
def sumPow (ms : List Merge) : Nat :=
  (ms.map fun m => 2 ^ (m.2.2 + 1).toNat).sum

theorem sumPow_nil : sumPow [] = 0 := rfl

theorem sumPow_cons (m : Merge) (l : List Merge) :
    sumPow (m :: l) = 2 ^ (m.2.2 + 1).toNat + sumPow l := by
  simp [sumPow]

/-- Score contribution of one merge event as the source's `u32`
computes it: `1u32 << (tile_val + 1)` with the `i32` sum wrapped and
the shift amount masked by 31. -/
def mergeGain (m : Merge) : Nat :=
  2 ^ ((wrap32 (m.2.2 + 1)).toNat % 32)

/-- Total (pre-reduction) masked score contributed by a merge list. -/
def sumGain (ms : List Merge) : Nat :=
  (ms.map mergeGain).sum

theorem sumGain_nil : sumGain [] = 0 := rfl

theorem sumGain_cons (m : Merge) (l : List Merge) :
    sumGain (m :: l) = mergeGain m + sumGain l := by
  simp [sumGain]

theorem sumGain_append (a b : List Merge) : sumGain (a ++ b) = sumGain a + sumGain b := by
  simp [sumGain]

/-- On merge values in `[1, 30]` the masked gain is the exact
`2^(v+1)`. -/
theorem sumGain_eq_sumPow {ms : List Merge}
    (h1 : ∀ m ∈ ms, 1 ≤ m.2.2) (h30 : ∀ m ∈ ms, m.2.2 ≤ 30) :
    sumGain ms = sumPow ms := by
  induction ms with
  | nil => rfl
  | cons m l ih =>
      have hm1 : 1 ≤ m.2.2 := h1 m (List.mem_cons_self m l)
      have hm30 : m.2.2 ≤ 30 := h30 m (List.mem_cons_self m l)
      have hw : wrap32 (m.2.2 + 1) = m.2.2 + 1 :=
        wrap32_eq_self (by omega) (by omega)
      have hlt32 : (m.2.2 + 1).toNat % 32 = (m.2.2 + 1).toNat :=
        Nat.mod_eq_of_lt (by omega)
      rw [sumGain_cons, sumPow_cons,
        ih (fun x hx => h1 x (List.mem_cons_of_mem m hx))
          (fun x hx => h30 x (List.mem_cons_of_mem m hx))]
      simp only [mergeGain, hw, hlt32]

theorem kkey_concat (d : Direction) (n : Nat) (l : List Trace) (a : Trace) :
    kkey d n (l ++ [a]) = (l.length + 1, prog d n a.2 + 1) := by
  simp [kkey, List.getLast?_concat]

theorem keyLt_concat (d : Direction) (n : Nat) (tr : List Trace) (a : Trace) :
    keyLt (kkey d n tr) (kkey d n (tr ++ [a])) := by
  refine Or.inl ?_
  simp [kkey]

/-- Combined effect of the two `set`s of one slide/merge step on the
potential: strictly decreasing, and by exactly one for a slide. -/
theorem phi_two_sets {d : Direction} {b : Board} {p q : Coordinate} {v : Int} {b1 b2 : Board}
    (hwf : wellFormed b) (hpq : p ≠ q) (hvalp : val b p ≠ 0)
    (hb1 : b.set q v = some b1) (hb2 : b1.set p BLANK = some b2)
    (hstep : stepsLeft d b.size p = stepsLeft d b.size q + 1) :
    phi d b2 < phi d b ∧ (val b q = 0 → v ≠ 0 → phi d b2 + 1 = phi d b) := by
  have hwf1 : wellFormed b1 := set_wellFormed hwf hb1
  have hsz1 : b1.size = b.size := set_size hb1
  have e1 := phi_set (d := d) hwf hb1
  have e2 := phi_set (d := d) hwf1 hb2
  rw [hsz1] at e2
  have hval1p : val b1 p = val b p := by
    rw [set_val hb1 p, if_neg hpq]
  rw [hval1p, if_pos hvalp] at e2
  have hblank : ¬ (BLANK ≠ (0 : Int)) := by simp [BLANK]
  rw [if_neg hblank] at e2
  have hXle : (if val b q ≠ 0 then stepsLeft d b.size q else 0) ≤ stepsLeft d b.size q := by
    split <;> omega
  have hYle : (if v ≠ 0 then stepsLeft d b.size q else 0) ≤ stepsLeft d b.size q := by
    split <;> omega
  constructor
  · omega
  · intro hq hv
    rw [if_neg (not_not_intro hq)] at e1
    rw [if_pos hv] at e1
    omega

/-! ### Totality of the `do_shift` walk -/

theorem do_shift_loop_total (d : Direction) :
    ∀ (fuel : Nat) (b : Board) (tile : Coordinate) (ns : Bool) (tr : List Trace) (ms : List Merge)
      (X : Nat),
      wellFormed b → nonneg b → inB b tile → (ns = true → tr ≠ []) →
      stepsLeft d b.size tile < fuel →
      valBound b X → X + fuel ≤ 2147483647 →
      ∃ b' tr' ms', do_shift_loop d fuel b tile ns tr ms = some (b', tr', ms') ∧
        valBound b' (X + fuel) := by
  intro fuel
  induction fuel with
  | zero => intro b tile ns tr ms X _ _ _ _ hfuel _ _; omega
  | succ f ih =>
      intro b tile ns tr ms X hwf hnn htile hns hfuel hvb hX
      simp only [do_shift_loop]
      cases hnext : b.next tile d with
      | none =>
          exact ⟨b, tr, ms, rfl, valBound_mono hvb (by omega)⟩
      | some next_tile =>
          obtain ⟨tv, hgt⟩ := get_some_of_inB hwf htile
          have hnextB : inB b next_tile := next_inB htile hnext
          obtain ⟨nv, hgn⟩ := get_some_of_inB hwf hnextB
          have hstep := next_stepsLeft_succ hnext
          simp only [hgt, hgn]
          by_cases htv : tv = BLANK
          · rw [if_neg (not_not_intro htv)]
            obtain ⟨b', tr', ms', hrec, hvb'⟩ :=
              ih b next_tile ns tr ms X hwf hnn hnextB hns (by omega) hvb (by omega)
            exact ⟨b', tr', ms', hrec, valBound_mono hvb' (by omega)⟩
          · rw [if_pos htv]
            by_cases hnv : nv = BLANK
            · rw [if_pos hnv]
              obtain ⟨b1, hb1⟩ : ∃ b1, b.set next_tile tv = some b1 :=
                Option.isSome_iff_exists.1 (set_isSome_iff.2
                  ⟨get_nonneg hnn hgt, by rw [hgn]; rfl⟩)
              simp only [hb1]
              have hwf1 : wellFormed b1 := set_wellFormed hwf hb1
              have hnn1 : nonneg b1 := set_nonneg hnn hb1
              have hsz1 : b1.size = b.size := (set_some_spec hb1).1
              have hvb1 : valBound b1 X := set_valBound hvb (get_valBound hvb hgt) hb1
              obtain ⟨b2, hb2⟩ : ∃ b2, b1.set tile BLANK = some b2 := by
                apply Option.isSome_iff_exists.1
                apply set_isSome_iff.2
                refine ⟨le_refl 0, ?_⟩
                rw [(set_some_spec hb1).2.2.2.2 tile]
                by_cases he : tile = next_tile
                · simp [he]
                · simp [he, hgt]
              simp only [hb2]
              have hwf2 : wellFormed b2 := set_wellFormed hwf1 hb2
              have hnn2 : nonneg b2 := set_nonneg hnn1 hb2
              have hvb2 : valBound b2 X :=
                set_valBound hvb1 (by simp only [BLANK]; omega) hb2
              have hsz2 : b2.size = b.size := by rw [(set_some_spec hb2).1, hsz1]
              have hnextB2 : inB b2 next_tile := inB_of_size_eq hsz2 hnextB
              have hfuel2 : stepsLeft d b2.size next_tile < f := by rw [hsz2]; omega
              cases ns with
              | true =>
                  have htr : tr ≠ [] := hns rfl
                  cases hlast : tr.getLast? with
                  | none =>
                      exact absurd (List.getLast?_eq_none_iff.1 hlast) htr
                  | some last =>
                      simp only [hlast, if_pos (show (true = true) from rfl)]
                      obtain ⟨b', tr', ms', hrec, hvb'⟩ :=
                        ih b2 next_tile true (tr.dropLast ++ [(last.1, next_tile)]) ms X
                          hwf2 hnn2 hnextB2 (fun _ => by simp) hfuel2 hvb2 (by omega)
                      exact ⟨b', tr', ms', hrec, valBound_mono hvb' (by omega)⟩
              | false =>
                  simp only [if_neg Bool.false_ne_true]
                  obtain ⟨b', tr', ms', hrec, hvb'⟩ :=
                    ih b2 next_tile true (tr ++ [(tile, next_tile)]) ms X
                      hwf2 hnn2 hnextB2 (fun _ => by simp) hfuel2 hvb2 (by omega)
                  exact ⟨b', tr', ms', hrec, valBound_mono hvb' (by omega)⟩
            · rw [if_neg hnv]
              by_cases heq : tv = nv
              · rw [if_pos heq]
                have h0tv : 0 ≤ tv := get_nonneg hnn hgt
                have htvX : tv ≤ (X : Int) := get_valBound hvb hgt
                have hwrap : wrap32 (tv + 1) = tv + 1 :=
                  wrap32_eq_self (by omega) (by omega)
                obtain ⟨b1, hb1⟩ : ∃ b1, b.set next_tile (wrap32 (tv + 1)) = some b1 :=
                  Option.isSome_iff_exists.1 (set_isSome_iff.2
                    ⟨by rw [hwrap]; omega, by rw [hgn]; rfl⟩)
                simp only [hb1]
                have hwf1 : wellFormed b1 := set_wellFormed hwf hb1
                have hnn1 : nonneg b1 := set_nonneg hnn hb1
                have hsz1 : b1.size = b.size := (set_some_spec hb1).1
                have hvb1 : valBound b1 ((X + 1 : Nat) : Int) :=
                  set_valBound (valBound_mono hvb (by omega))
                    (by rw [hwrap]; omega) hb1
                obtain ⟨b2, hb2⟩ : ∃ b2, b1.set tile BLANK = some b2 := by
                  apply Option.isSome_iff_exists.1
                  apply set_isSome_iff.2
                  refine ⟨le_refl 0, ?_⟩
                  rw [(set_some_spec hb1).2.2.2.2 tile]
                  by_cases he : tile = next_tile
                  · simp [he]
                  · simp [he, hgt]
                simp only [hb2]
                have hwf2 : wellFormed b2 := set_wellFormed hwf1 hb2
                have hnn2 : nonneg b2 := set_nonneg hnn1 hb2
                have hvb2 : valBound b2 ((X + 1 : Nat) : Int) :=
                  set_valBound hvb1 (by simp only [BLANK]; omega) hb2
                have hsz2 : b2.size = b.size := by rw [(set_some_spec hb2).1, hsz1]
                obtain ⟨b', tr', ms', hrec, hvb'⟩ :=
                  ih { b2 with score :=
                        (b2.score + 2 ^ ((wrap32 (tv + 1)).toNat % 32)) % 2 ^ 32 }
                    next_tile false (tr ++ [(tile, next_tile)])
                    (ms ++ [(tile, next_tile, tv)]) (X + 1)
                    hwf2 hnn2 (inB_of_size_eq hsz2 hnextB)
                    (fun hcon => Bool.noConfusion hcon)
                    (by show stepsLeft d b2.size next_tile < f; rw [hsz2]; omega)
                    hvb2 (by omega)
                exact ⟨b', tr', ms', hrec, valBound_mono hvb' (by omega)⟩
              · rw [if_neg heq]
                obtain ⟨b', tr', ms', hrec, hvb'⟩ :=
                  ih b next_tile ns tr ms X hwf hnn hnextB hns (by omega) hvb (by omega)
                exact ⟨b', tr', ms', hrec, valBound_mono hvb' (by omega)⟩


/-- Walk invariant: with the just-slid flag up, the trace list ends in
a trace whose source is in the current lane, at or behind the cursor,
and whose destination is at or behind the cursor. -/
def slidInv (d : Direction) (b : Board) (tile : Coordinate) (ns : Bool) (tr : List Trace) : Prop :=
  ns = true → ∃ pre f t, tr = pre ++ [(f, t)] ∧ inB b f ∧
    ortho d f = ortho d tile ∧ prog d b.size f ≤ prog d b.size tile ∧
    prog d b.size t ≤ prog d b.size tile

/-- Main conditional specification of one `do_shift` walk: shape and
sign preservation, the masked modular score accounting of the source's
`u32` against the ghost merge list, geometric soundness of traces,
monotone trace key, and the potential argument (the board is unchanged
iff no trace was added or rewritten, else the potential strictly
drops). -/
theorem do_shift_loop_spec (d : Direction) :
    ∀ (fuel : Nat) (b : Board) (tile : Coordinate) (ns : Bool) (tr : List Trace) (ms : List Merge)
      (b' : Board) (tr' : List Trace) (ms' : List Merge),
      do_shift_loop d fuel b tile ns tr ms = some (b', tr', ms') →
      wellFormed b → inB b tile →
      slidInv d b tile ns tr →
      wellFormed b' ∧ b'.size = b.size ∧
      (nonneg b → nonneg b') ∧
      (∃ nm, ms' = ms ++ nm ∧
        b'.score % 2 ^ 32 = (b.score + sumGain nm) % 2 ^ 32 ∧
        (nm = [] → b'.score = b.score) ∧
        (nm ≠ [] → b'.score < 2 ^ 32) ∧
        (nonneg b → ∀ m ∈ nm, 1 ≤ m.2.2)) ∧
      ((∀ t ∈ tr, traceOk d b.size t) → ∀ t ∈ tr', traceOk d b.size t) ∧
      keyLe (kkey d b.size tr) (kkey d b.size tr') ∧
      phi d b' ≤ phi d b ∧
      ((b' = b ∧ tr' = tr ∧ ms' = ms) ∨
        (phi d b' < phi d b ∧ keyLt (kkey d b.size tr) (kkey d b.size tr'))) := by
  intro fuel
  induction fuel with
  | zero =>
      intro b tile ns tr ms b' tr' ms' h
      exact absurd h (by simp [do_shift_loop])
  | succ f ih =>
      intro b tile ns tr ms b' tr' ms' h hwf htile hJ
      simp only [do_shift_loop] at h
      cases hnext : b.next tile d with
      | none =>
          simp only [hnext, Option.some.injEq, Prod.mk.injEq] at h
          obtain ⟨rfl, rfl, rfl⟩ := h
          exact ⟨hwf, rfl, fun hnn => hnn,
            ⟨[], by simp, by simp [sumGain_nil], fun _ => rfl, fun hne => absurd rfl hne,
              fun _ m hm => absurd hm (List.not_mem_nil m)⟩,
            fun hTr => hTr, keyLe_refl _, le_refl _, Or.inl ⟨rfl, rfl, rfl⟩⟩
      | some next_tile =>
          simp only [hnext] at h
          have hnextB : inB b next_tile := next_inB htile hnext
          have horthoN : ortho d next_tile = ortho d tile := next_ortho hnext
          have hprogN : prog d b.size tile < prog d b.size next_tile := next_prog htile hnext
          have hstepN := next_stepsLeft_succ hnext
          have hJ' : slidInv d b next_tile ns tr := by
            intro hns
            obtain ⟨pre, f0, t0, he, hfB, ho, hp1, hp2⟩ := hJ hns
            exact ⟨pre, f0, t0, he, hfB, by rw [horthoN]; exact ho, by omega, by omega⟩
          cases hgt : b.get tile with
          | none =>
              cases hgn : b.get next_tile with
              | none => simp only [hgt, hgn] at h; exact Option.noConfusion h
              | some nv => simp only [hgt, hgn] at h; exact Option.noConfusion h
          | some tv =>
              cases hgn : b.get next_tile with
              | none => simp only [hgt, hgn] at h; exact Option.noConfusion h
              | some nv =>
                  simp only [hgt, hgn] at h
                  by_cases htv : tv = BLANK
                  · rw [if_neg (not_not_intro htv)] at h
                    exact ih b next_tile ns tr ms b' tr' ms' h hwf hnextB hJ'
                  · rw [if_pos htv] at h
                    have hvalp : val b tile ≠ 0 := by
                      rw [val_of_get hgt]; exact htv
                    have htile_ne : tile ≠ next_tile := fun he => (next_ne htile hnext) he.symm
                    by_cases hnv0 : nv = BLANK
                    · rw [if_pos hnv0] at h
                      cases hb1 : b.set next_tile tv with
                      | none => simp only [hb1] at h; exact Option.noConfusion h
                      | some b1 =>
                          simp only [hb1] at h
                          cases hb2 : b1.set tile BLANK with
                          | none => simp only [hb2] at h; exact Option.noConfusion h
                          | some b2 =>
                              simp only [hb2] at h
                              have hwf1 := set_wellFormed hwf hb1
                              have hwf2 := set_wellFormed hwf1 hb2
                              have hsz2 : b2.size = b.size := by
                                rw [set_size hb2, set_size hb1]
                              have hnnimp : nonneg b → nonneg b2 := fun hnn =>
                                set_nonneg (set_nonneg hnn hb1) hb2
                              have hsc2 : b2.score = b.score := by
                                rw [set_score hb2, set_score hb1]
                              have hvalq0 : val b next_tile = 0 := by
                                rw [val_of_get hgn]; exact hnv0
                              have hphi1 : phi d b2 + 1 = phi d b :=
                                (phi_two_sets hwf htile_ne hvalp hb1 hb2 hstepN).2 hvalq0 htv
                              have hnextB2 : inB b2 next_tile := inB_of_size_eq hsz2 hnextB
                              cases ns with
                              | false =>
                                  rw [if_neg Bool.false_ne_true] at h
                                  have hJ2 : slidInv d b2 next_tile true (tr ++ [(tile, next_tile)]) := by
                                    intro _
                                    refine ⟨tr, tile, next_tile, rfl, inB_of_size_eq hsz2 htile,
                                      horthoN.symm, ?_, ?_⟩
                                    · rw [hsz2]; omega
                                    · exact le_refl _
                                  obtain ⟨ihwf, ihsz, ihnn, ⟨nm, hnm, ihmod, ihemp, ihne, ihv⟩,
                                      ihtr, ihkey, ihphi, -⟩ :=
                                    ih b2 next_tile true _ ms b' tr' ms' h hwf2 hnextB2 hJ2
                                  rw [hsz2] at ihsz ihtr ihkey
                                  refine ⟨ihwf, ihsz, fun hnn => ihnn (hnnimp hnn),
                                    ⟨nm, hnm, by rw [ihmod, hsc2],
                                      fun h0 => by rw [ihemp h0, hsc2], ihne,
                                      fun hnn => ihv (hnnimp hnn)⟩,
                                    ?_, ?_, by omega, Or.inr ⟨by omega, ?_⟩⟩
                                  · intro hTr
                                    apply ihtr
                                    intro t ht
                                    rcases List.mem_append.1 ht with h1 | h2
                                    · exact hTr t h1
                                    · rw [List.mem_singleton] at h2
                                      subst h2
                                      exact ⟨horthoN.symm, hprogN, htile.1, htile.2, hnextB.1, hnextB.2⟩
                                  · exact keyLe_trans (keyLe_of_lt (keyLt_concat d b.size tr (tile, next_tile))) ihkey
                                  · exact keyLt_of_lt_of_le (keyLt_concat d b.size tr (tile, next_tile)) ihkey
                              | true =>
                                  obtain ⟨pre, f0, t0, htreq, hfB, hfo, hfp, htp⟩ := hJ rfl
                                  subst htreq
                                  rw [if_pos (Eq.refl true)] at h
                                  simp only [List.getLast?_concat, List.dropLast_concat] at h
                                  have hJ2 : slidInv d b2 next_tile true (pre ++ [(f0, next_tile)]) := by
                                    intro _
                                    refine ⟨pre, f0, next_tile, rfl, inB_of_size_eq hsz2 hfB,
                                      by rw [horthoN]; exact hfo, ?_, ?_⟩
                                    · rw [hsz2]; omega
                                    · exact le_refl _
                                  obtain ⟨ihwf, ihsz, ihnn, ⟨nm, hnm, ihmod, ihemp, ihne, ihv⟩,
                                      ihtr, ihkey, ihphi, -⟩ :=
                                    ih b2 next_tile true _ ms b' tr' ms' h hwf2 hnextB2 hJ2
                                  rw [hsz2] at ihsz ihtr ihkey
                                  have hklt : keyLt (kkey d b.size (pre ++ [(f0, t0)]))
                                      (kkey d b.size (pre ++ [(f0, next_tile)])) := by
                                    rw [kkey_concat, kkey_concat]
                                    refine Or.inr ⟨rfl, ?_⟩
                                    show prog d b.size t0 + 1 < prog d b.size next_tile + 1
                                    omega
                                  refine ⟨ihwf, ihsz, fun hnn => ihnn (hnnimp hnn),
                                    ⟨nm, hnm, by rw [ihmod, hsc2],
                                      fun h0 => by rw [ihemp h0, hsc2], ihne,
                                      fun hnn => ihv (hnnimp hnn)⟩,
                                    ?_, keyLe_trans (keyLe_of_lt hklt) ihkey, by omega,
                                    Or.inr ⟨by omega, keyLt_of_lt_of_le hklt ihkey⟩⟩
                                  intro hTr
                                  apply ihtr
                                  intro t ht
                                  rcases List.mem_append.1 ht with h1 | h2
                                  · exact hTr t (List.mem_append.2 (Or.inl h1))
                                  · rw [List.mem_singleton] at h2
                                    subst h2
                                    refine ⟨?_, ?_, hfB.1, hfB.2, hnextB.1, hnextB.2⟩
                                    · show ortho d f0 = ortho d next_tile
                                      rw [horthoN]; exact hfo
                                    · show prog d b.size f0 < prog d b.size next_tile
                                      omega
                    · rw [if_neg hnv0] at h
                      by_cases heq : tv = nv
                      · rw [if_pos heq] at h
                        cases hb1 : b.set next_tile (wrap32 (tv + 1)) with
                        | none => simp only [hb1] at h; exact Option.noConfusion h
                        | some b1 =>
                            simp only [hb1] at h
                            cases hb2 : b1.set tile BLANK with
                            | none => simp only [hb2] at h; exact Option.noConfusion h
                            | some b2 =>
                                simp only [hb2] at h
                                have hwf1 := set_wellFormed hwf hb1
                                have hwf2 := set_wellFormed hwf1 hb2
                                have hsz2 : b2.size = b.size := by
                                  rw [set_size hb2, set_size hb1]
                                have hnnimp : nonneg b → nonneg b2 := fun hnn =>
                                  set_nonneg (set_nonneg hnn hb1) hb2
                                have hsc2 : b2.score = b.score := by
                                  rw [set_score hb2, set_score hb1]
                                have hphi2 : phi d b2 < phi d b :=
                                  (phi_two_sets hwf htile_ne hvalp hb1 hb2 hstepN).1
                                have hJ2 : slidInv d
                                    { b2 with score :=
                                        (b2.score + 2 ^ ((wrap32 (tv + 1)).toNat % 32)) % 2 ^ 32 }
                                    next_tile false (tr ++ [(tile, next_tile)]) :=
                                  fun hcon => absurd hcon (by simp)
                                obtain ⟨ihwf, ihsz, ihnn, ⟨nm, hnm, ihmod, ihemp, ihne, ihv⟩,
                                    ihtr, ihkey, ihphi, -⟩ :=
                                  ih { b2 with score :=
                                        (b2.score + 2 ^ ((wrap32 (tv + 1)).toNat % 32)) % 2 ^ 32 }
                                    next_tile false _ _ b' tr' ms' h hwf2
                                    (inB_of_size_eq hsz2 hnextB) hJ2
                                have ihsz' : b'.size = b.size := by rw [ihsz]; exact hsz2
                                have hphis : phi d { b2 with score :=
                                    (b2.score + 2 ^ ((wrap32 (tv + 1)).toNat % 32)) % 2 ^ 32 }
                                    = phi d b2 := rfl
                                rw [hphis] at ihphi
                                have hszeq : ({ b2 with score :=
                                    (b2.score + 2 ^ ((wrap32 (tv + 1)).toNat % 32)) % 2 ^ 32 }
                                    : Board).size = b.size := hsz2
                                rw [hszeq] at ihtr ihkey
                                have escore : ({ b2 with score :=
                                    (b2.score + 2 ^ ((wrap32 (tv + 1)).toNat % 32)) % 2 ^ 32 }
                                    : Board).score
                                    = (b.score + mergeGain (tile, next_tile, tv)) % 2 ^ 32 := by
                                  show (b2.score + 2 ^ ((wrap32 (tv + 1)).toNat % 32)) % 2 ^ 32
                                      = (b.score + mergeGain (tile, next_tile, tv)) % 2 ^ 32
                                  rw [hsc2]
                                  rfl
                                refine ⟨ihwf, ihsz', fun hnn => ihnn (hnnimp hnn),
                                  ⟨(tile, next_tile, tv) :: nm, ?_, ?_, ?_, ?_, ?_⟩,
                                  ?_, keyLe_trans (keyLe_of_lt (keyLt_concat d b.size tr (tile, next_tile))) ihkey,
                                  by omega,
                                  Or.inr ⟨by omega, keyLt_of_lt_of_le (keyLt_concat d b.size tr (tile, next_tile)) ihkey⟩⟩
                                · rw [hnm]
                                  simp
                                · rw [ihmod, escore, Nat.mod_add_mod, sumGain_cons,
                                    ← Nat.add_assoc]
                                · intro hcon
                                  exact absurd hcon (List.cons_ne_nil _ _)
                                · intro _
                                  by_cases h0 : nm = []
                                  · rw [ihemp h0, escore]
                                    exact Nat.mod_lt _ (by norm_num)
                                  · exact ihne h0
                                · intro hnn m hm
                                  rcases List.mem_cons.1 hm with he | hm2
                                  · subst he
                                    have h0 : (0 : Int) ≤ tv := get_nonneg hnn hgt
                                    show (1 : Int) ≤ tv
                                    have htv0 : tv ≠ 0 := htv
                                    omega
                                  · exact ihv (hnnimp hnn) m hm2
                                · intro hTr
                                  apply ihtr
                                  intro t ht
                                  rcases List.mem_append.1 ht with h1 | h2
                                  · exact hTr t h1
                                  · rw [List.mem_singleton] at h2
                                    subst h2
                                    exact ⟨horthoN.symm, hprogN, htile.1, htile.2, hnextB.1, hnextB.2⟩
                      · rw [if_neg heq] at h
                        exact ih b next_tile ns tr ms b' tr' ms' h hwf hnextB hJ'

theorem sumPow_append (a b : List Merge) : sumPow (a ++ b) = sumPow a + sumPow b := by
  simp [sumPow]

theorem sweep_mem {n : Nat} {d : Direction} {c : Coordinate} (h : c ∈ sweep n d) :
    c.1 < n ∧ c.2 < n := by
  cases d <;>
    simp only [sweep, List.mem_flatMap, List.mem_map, List.mem_reverse, List.mem_range] at h
  · obtain ⟨y, hy, x, hx, rfl⟩ := h
    exact ⟨hx, hy⟩
  · obtain ⟨y, hy, x, hx, rfl⟩ := h
    exact ⟨hx, hy⟩
  · obtain ⟨x, hx, y, hy, rfl⟩ := h
    exact ⟨hx, hy⟩
  · obtain ⟨x, hx, y, hy, rfl⟩ := h
    exact ⟨hx, hy⟩

theorem stepsLeft_lt_fuel {b : Board} {c : Coordinate} {d : Direction} (hc : inB b c) :
    stepsLeft d b.size c < b.size + 1 := by
  obtain ⟨h1, h2⟩ := hc
  cases d <;> simp only [stepsLeft] <;> omega

theorem sum_map_const_length {α : Type} :
    ∀ (l : List α) (k : Nat), (l.map fun _ => k).sum = l.length * k := by
  intro l k
  induction l with
  | nil => simp
  | cons a t ih => simp [ih, Nat.succ_mul, Nat.add_comm]

theorem sweep_length (n : Nat) (d : Direction) : (sweep n d).length = n * n := by
  cases d <;>
    simp [sweep, List.length_flatMap, Function.comp_def, sum_map_const_length]

/-- Totality of one `do_shift` call on a well-formed non-negative board
whose cell values leave `size + 1` increments of headroom below
`i32::MAX` (so no merge of the walk can overflow the `i32`
`tile_val + 1`). -/
theorem do_shift_total {b : Board} {c : Coordinate} {d : Direction} {X : Nat}
    (hwf : wellFormed b) (hnn : nonneg b) (hc : inB b c)
    (hvb : valBound b X) (hX : X + (b.size + 1) ≤ 2147483647) :
    ∃ b' tr ms, do_shift b c d = some (b', tr, ms) ∧ valBound b' (X + (b.size + 1)) :=
  do_shift_loop_total d (b.size + 1) b c false [] [] X hwf hnn hc
    (fun hcon => Bool.noConfusion hcon) (stepsLeft_lt_fuel hc) hvb hX

theorem shiftFold_total (d : Direction) :
    ∀ (cs : List Coordinate) (b : Board) (tr : List Trace) (ms : List Merge) (X : Nat),
      wellFormed b → nonneg b → (∀ c ∈ cs, inB b c) →
      valBound b X → X + (b.size + 1) * cs.length ≤ 2147483647 →
      ∃ st, shiftFold d cs (b, tr, ms) = some st := by
  intro cs
  induction cs with
  | nil => intro b tr ms X _ _ _ _ _; exact ⟨(b, tr, ms), rfl⟩
  | cons c cs ih =>
      intro b tr ms X hwf hnn hcs hvb hX
      simp only [List.length_cons, Nat.mul_succ] at hX
      obtain ⟨b1, t1, m1, hds, hvb1⟩ :=
        do_shift_total hwf hnn (hcs c (List.mem_cons_self c cs)) hvb (by omega)
      obtain ⟨hwf1, hsz1, hnn1, -, -, -, -, -⟩ :=
        do_shift_loop_spec d (b.size + 1) b c false [] [] b1 t1 m1 hds hwf
          (hcs c (List.mem_cons_self c cs)) (fun hcon => Bool.noConfusion hcon)
      obtain ⟨st, hst⟩ := ih b1 (tr ++ t1) (ms ++ m1) (X + (b.size + 1)) hwf1 (hnn1 hnn)
        (fun c' hc' => inB_of_size_eq hsz1 (hcs c' (List.mem_cons_of_mem _ hc')))
        hvb1 (by rw [hsz1]; omega)
      exact ⟨st, by simp only [shiftFold, hds]; exact hst⟩

/-- Fold-level specification over a list of starting coordinates. -/
theorem shiftFold_spec (d : Direction) :
    ∀ (cs : List Coordinate) (b : Board) (tr : List Trace) (ms : List Merge)
      (b' : Board) (tr' : List Trace) (ms' : List Merge),
      shiftFold d cs (b, tr, ms) = some (b', tr', ms') →
      wellFormed b → (∀ c ∈ cs, inB b c) →
      wellFormed b' ∧ b'.size = b.size ∧ (nonneg b → nonneg b') ∧
      (∃ nm, ms' = ms ++ nm ∧
        b'.score % 2 ^ 32 = (b.score + sumGain nm) % 2 ^ 32 ∧
        (nm = [] → b'.score = b.score) ∧
        (nm ≠ [] → b'.score < 2 ^ 32) ∧
        (nonneg b → ∀ m ∈ nm, 1 ≤ m.2.2)) ∧
      ((∀ t ∈ tr, traceOk d b.size t) → ∀ t ∈ tr', traceOk d b.size t) ∧
      phi d b' ≤ phi d b ∧
      (∃ nt, tr' = tr ++ nt ∧
        ((nt = [] ∧ b' = b ∧ ms' = ms) ∨ (nt ≠ [] ∧ phi d b' < phi d b))) := by
  intro cs
  induction cs with
  | nil =>
      intro b tr ms b' tr' ms' h hwf _
      simp only [shiftFold, Option.some.injEq, Prod.mk.injEq] at h
      obtain ⟨rfl, rfl, rfl⟩ := h
      exact ⟨hwf, rfl, fun hnn => hnn,
        ⟨[], by simp, by simp [sumGain_nil], fun _ => rfl, fun hne => absurd rfl hne,
          fun _ m hm => absurd hm (List.not_mem_nil m)⟩,
        fun hTr => hTr, le_refl _, ⟨[], by simp, Or.inl ⟨rfl, rfl, rfl⟩⟩⟩
  | cons c cs ih =>
      intro b tr ms b' tr' ms' h hwf hcs
      simp only [shiftFold] at h
      cases hds : do_shift b c d with
      | none => simp only [hds] at h; exact Option.noConfusion h
      | some st =>
          obtain ⟨b1, t1, m1⟩ := st
          simp only [hds] at h
          have hcB : inB b c := hcs c (List.mem_cons_self c cs)
          obtain ⟨hwf1, hsz1, hnn1, ⟨nm1, hnm1, hmod1, hemp1, hne1, hv1⟩, htr1, -, hphi1, hdisj1⟩ :=
            do_shift_loop_spec d (b.size + 1) b c false [] [] b1 t1 m1 hds hwf hcB
              (fun hcon => Bool.noConfusion hcon)
          have ht1ok : ∀ t ∈ t1, traceOk d b.size t :=
            htr1 (fun t ht => absurd ht (List.not_mem_nil t))
          obtain ⟨ihwf, ihsz, ihnn, ⟨nm2, hnm2, hmod2, hemp2, hne2, ihv⟩, ihtr, ihphi,
              ⟨nt2, hnt2, ihdisj⟩⟩ :=
            ih b1 (tr ++ t1) (ms ++ m1) b' tr' ms' h hwf1
              (fun c' hc' => inB_of_size_eq hsz1 (hcs c' (List.mem_cons_of_mem _ hc')))
          rw [hsz1] at ihsz ihtr
          have hm1nm : m1 = nm1 := by simpa using hnm1
          refine ⟨ihwf, ihsz, fun hnn => ihnn (hnn1 hnn),
            ⟨nm1 ++ nm2, ?_, ?_, ?_, ?_, ?_⟩, ?_, by omega,
            ⟨t1 ++ nt2, by rw [hnt2, List.append_assoc], ?_⟩⟩
          · rw [hnm2, hm1nm, List.append_assoc]
          · calc b'.score % 2 ^ 32
                = (b1.score + sumGain nm2) % 2 ^ 32 := hmod2
              _ = (b1.score % 2 ^ 32 + sumGain nm2) % 2 ^ 32 := (Nat.mod_add_mod _ _ _).symm
              _ = ((b.score + sumGain nm1) % 2 ^ 32 + sumGain nm2) % 2 ^ 32 := by rw [hmod1]
              _ = (b.score + sumGain nm1 + sumGain nm2) % 2 ^ 32 := Nat.mod_add_mod _ _ _
              _ = (b.score + sumGain (nm1 ++ nm2)) % 2 ^ 32 := by
                    rw [sumGain_append, Nat.add_assoc]
          · intro h0
            rw [hemp2 (List.append_eq_nil.1 h0).2, hemp1 (List.append_eq_nil.1 h0).1]
          · intro h0
            by_cases h02 : nm2 = []
            · rw [hemp2 h02]
              apply hne1
              intro h01
              exact h0 (by rw [h01, h02]; rfl)
            · exact hne2 h02
          · intro hnn m hm
            rcases List.mem_append.1 hm with h1 | h2
            · exact hv1 hnn m (hm1nm ▸ h1)
            · exact ihv (hnn1 hnn) m h2
          · intro hTr
            apply ihtr
            intro t ht
            rcases List.mem_append.1 ht with h1 | h2
            · exact hTr t h1
            · exact ht1ok t h2
          · rcases hdisj1 with ⟨rfl, rfl, rfl⟩ | ⟨hphilt, hkey⟩
            · rcases ihdisj with ⟨hnt0, rfl, hms0⟩ | ⟨hne, hlt⟩
              · exact Or.inl ⟨by simp [hnt0], rfl, by simpa using hms0⟩
              · exact Or.inr ⟨by simp [hne], hlt⟩
            · have ht1ne : t1 ≠ [] := by
                intro he
                subst he
                exact keyLt_ne hkey rfl
              exact Or.inr ⟨by simp [ht1ne], by omega⟩

/-! ### Lemmas about `chunks` (used by `Board.new`) -/

theorem chunksGo_nil (n : Nat) : ∀ fuel, chunksGo n fuel [] = [] := by
  intro fuel
  cases fuel <;> rfl

theorem chunksGo_flatten (n : Nat) :
    ∀ fuel (l : List Int), l.length ≤ fuel → (chunksGo n fuel l).flatten = l := by
  intro fuel
  induction fuel with
  | zero =>
      intro l hl
      cases l with
      | nil => rfl
      | cons x xs => simp at hl
  | succ f ih =>
      intro l hl
      cases l with
      | nil => rfl
      | cons x xs =>
          simp only [chunksGo, List.flatten_cons]
          rw [ih ((x :: xs).drop (n + 1)) (by simp at hl ⊢; omega)]
          exact List.take_append_drop (n + 1) (x :: xs)

theorem chunksGo_shape (s : Nat) (hs : 1 ≤ s) :
    ∀ (k fuel : Nat) (l : List Int), l.length = s * k → l.length ≤ fuel →
      (chunksGo (s - 1) fuel l).length = k ∧
      ∀ row ∈ chunksGo (s - 1) fuel l, row.length = s := by
  intro k
  induction k with
  | zero =>
      intro fuel l hlen _
      have : l = [] := List.eq_nil_of_length_eq_zero (by omega)
      subst this
      rw [chunksGo_nil]
      simp
  | succ k ih =>
      intro fuel l hlen hfuel
      have hpos : 1 ≤ l.length := by
        have : s * (k + 1) = s * k + s := by ring
        omega
      cases l with
      | nil => simp at hpos
      | cons x xs =>
          cases fuel with
          | zero => simp at hfuel
          | succ f =>
              simp only [chunksGo]
              have hs1 : s - 1 + 1 = s := by omega
              have hlen' : ((x :: xs).drop (s - 1 + 1)).length = s * k := by
                simp only [List.length_drop]
                have : s * (k + 1) = s * k + s := by ring
                simp at hlen ⊢
                omega
              have hfuel' : ((x :: xs).drop (s - 1 + 1)).length ≤ f := by
                simp only [List.length_drop]
                simp at hfuel ⊢
                omega
              obtain ⟨ihl, ihr⟩ := ih f _ hlen' hfuel'
              constructor
              · simp only [List.length_cons, ihl]
              · intro row hrow
                rcases List.mem_cons.1 hrow with he | hm
                · subst he
                  rw [List.length_take]
                  have : s * (k + 1) = s * k + s := by ring
                  simp at hlen ⊢
                  omega
                · exact ihr row hm

theorem flatten_length_const {α : Type} (s : Nat) :
    ∀ (L : List (List α)), (∀ r ∈ L, r.length = s) → L.flatten.length = L.length * s := by
  intro L
  induction L with
  | nil => simp
  | cons r rs ih =>
      intro h
      simp only [List.flatten_cons, List.length_append, List.length_cons]
      rw [h r (List.mem_cons_self r rs), ih (fun r hr => h r (List.mem_cons_of_mem _ hr))]
      ring

/-! ### The `is_game_over` worklist (claim C2) -/

/-- Reachability along the worklist's Right/Down enqueue steps. -/
inductive Steps (b : Board) : Coordinate → Coordinate → Prop where
  | refl (c : Coordinate) : Steps b c c
  | right {c e : Coordinate} (n : Coordinate)
      (h : b.next c Direction.right = some n) (hs : Steps b n e) : Steps b c e
  | down {c e : Coordinate} (n : Coordinate)
      (h : b.next c Direction.down = some n) (hs : Steps b n e) : Steps b c e

/-- What the worklist checks at one cell: not blank, and different
from the Right and Down neighbours when they exist. -/
def good (b : Board) (c : Coordinate) : Prop :=
  ¬ b.get c = some BLANK ∧
  (∀ nr, b.next c Direction.right = some nr → ¬ b.get c = b.get nr) ∧
  (∀ nd, b.next c Direction.down = some nd → ¬ b.get c = b.get nd)

theorem steps_trans (b : Board) : ∀ x y z, Steps b x y → Steps b y z → Steps b x z := by
  intro x y z h1
  induction h1 with
  | refl c => exact fun h2 => h2
  | right n hn hs ih => exact fun h2 => Steps.right n hn (ih h2)
  | down n hn hs ih => exact fun h2 => Steps.down n hn (ih h2)

theorem steps_inB (b : Board) : ∀ q c, Steps b q c → inB b q → inB b c := by
  intro q c h
  induction h with
  | refl c => exact fun hq => hq
  | right n hn hs ih => exact fun hq => ih (next_inB hq hn)
  | down n hn hs ih => exact fun hq => ih (next_inB hq hn)

theorem steps_down_col (b : Board) : ∀ i, i < b.size → Steps b (0, 0) (i, 0) := by
  intro i
  induction i with
  | zero => intro _; exact Steps.refl _
  | succ k ih =>
      intro hk
      refine steps_trans b _ (k, 0) _ (ih (by omega)) ?_
      refine Steps.down (k + 1, 0) ?_ (Steps.refl _)
      simp only [Board.next]
      rw [if_pos (by simpa using hk)]

theorem steps_row (b : Board) : ∀ i j, j < b.size → Steps b (i, 0) (i, j) := by
  intro i j
  induction j with
  | zero => intro _; exact Steps.refl _
  | succ k ih =>
      intro hk
      refine steps_trans b _ (i, k) _ (ih (by omega)) ?_
      refine Steps.right (i, k + 1) ?_ (Steps.refl _)
      simp only [Board.next]
      rw [if_pos (by simpa using hk)]

theorem steps_origin (b : Board) {c : Coordinate}
    (h1 : c.1 < b.size) (h2 : c.2 < b.size) : Steps b (0, 0) c := by
  have hd := steps_down_col b c.1 h1
  have hr := steps_row b c.1 c.2 h2
  have := steps_trans b _ _ _ hd hr
  simpa using this

/-- Measure of a single queue entry (coordinates capped into the grid
so that the measure is robust). -/
def cMeasure (n : Nat) (c : Coordinate) : Nat :=
  3 ^ (2 * n - 2 - (min c.1 (n - 1) + min c.2 (n - 1)))

/-- Measure of the whole worklist; strictly decreases at every pop. -/
def qMeasure (n : Nat) (Q : List Coordinate) : Nat :=
  (Q.map fun c => cMeasure n c).sum

theorem cMeasure_pos (n : Nat) (c : Coordinate) : 0 < cMeasure n c :=
  Nat.pos_pow_of_pos _ (by norm_num)

theorem qMeasure_nil (n : Nat) : qMeasure n [] = 0 := rfl

theorem qMeasure_cons (n : Nat) (c : Coordinate) (Q : List Coordinate) :
    qMeasure n (c :: Q) = cMeasure n c + qMeasure n Q := by
  simp [qMeasure]

theorem qMeasure_append (n : Nat) (Q1 Q2 : List Coordinate) :
    qMeasure n (Q1 ++ Q2) = qMeasure n Q1 + qMeasure n Q2 := by
  simp [qMeasure]

theorem cMeasure_push_right {b : Board} {c nr : Coordinate}
    (h : b.next c Direction.right = some nr) :
    3 * cMeasure b.size nr = cMeasure b.size c := by
  simp only [Board.next] at h
  split at h
  · rename_i hc
    obtain rfl := Option.some.inj h
    simp only [cMeasure]
    have e1 : min (c.1, c.2 + 1).1 (b.size - 1) = min c.1 (b.size - 1) := rfl
    have e2 : min (c.1, c.2 + 1).2 (b.size - 1) = c.2 + 1 := by
      show min (c.2 + 1) (b.size - 1) = c.2 + 1
      omega
    have e3 : min c.2 (b.size - 1) = c.2 := by omega
    rw [e1, e2, e3]
    have e4 : 2 * b.size - 2 - (min c.1 (b.size - 1) + c.2)
        = (2 * b.size - 2 - (min c.1 (b.size - 1) + (c.2 + 1))) + 1 := by
      have hm : min c.1 (b.size - 1) ≤ b.size - 1 := by omega
      omega
    rw [e4, pow_succ]
    ring
  · exact Option.noConfusion h

theorem cMeasure_push_down {b : Board} {c nd : Coordinate}
    (h : b.next c Direction.down = some nd) :
    3 * cMeasure b.size nd = cMeasure b.size c := by
  simp only [Board.next] at h
  split at h
  · rename_i hc
    obtain rfl := Option.some.inj h
    simp only [cMeasure]
    have e2 : min (c.1 + 1, c.2).1 (b.size - 1) = c.1 + 1 := by
      show min (c.1 + 1) (b.size - 1) = c.1 + 1
      omega
    have e1 : min (c.1 + 1, c.2).2 (b.size - 1) = min c.2 (b.size - 1) := rfl
    have e3 : min c.1 (b.size - 1) = c.1 := by omega
    rw [e1, e2, e3]
    have e4 : 2 * b.size - 2 - (c.1 + min c.2 (b.size - 1))
        = (2 * b.size - 2 - (c.1 + 1 + min c.2 (b.size - 1))) + 1 := by
      have hm : min c.2 (b.size - 1) ≤ b.size - 1 := by omega
      omega
    rw [e4, pow_succ]
    ring
  · exact Option.noConfusion h

/-- Fuel sufficiency: `overQueue` always answers when the fuel
dominates the queue measure. -/
theorem overQueue_total (b : Board) : ∀ (fuel : Nat) (Q : List Coordinate),
    qMeasure b.size Q < fuel → ∃ r, overQueue b fuel Q = some r := by
  intro fuel
  induction fuel with
  | zero => intro Q h; omega
  | succ f ih =>
      intro Q hm
      cases Q with
      | nil => exact ⟨true, rfl⟩
      | cons cur rest =>
          rw [qMeasure_cons] at hm
          have hcpos := cMeasure_pos b.size cur
          simp only [overQueue]
          by_cases hblank : b.get cur = some BLANK
          · rw [if_pos hblank]
            exact ⟨false, rfl⟩
          · rw [if_neg hblank]
            cases hnr : b.next cur Direction.right with
            | some nr =>
                have hmr := cMeasure_push_right hnr
                by_cases heqr : b.get cur = b.get nr
                · simp only [if_pos heqr]
                  exact ⟨false, rfl⟩
                · simp only [if_neg heqr]
                  cases hnd : b.next cur Direction.down with
                  | some nd =>
                      have hmd := cMeasure_push_down hnd
                      by_cases heqd : b.get cur = b.get nd
                      · simp only [if_pos heqd]
                        exact ⟨false, rfl⟩
                      · simp only [if_neg heqd]
                        apply ih
                        rw [qMeasure_append, qMeasure_cons, qMeasure_cons, qMeasure_nil]
                        omega
                  | none =>
                      apply ih
                      rw [qMeasure_append, qMeasure_cons, qMeasure_nil]
                      omega
            | none =>
                cases hnd : b.next cur Direction.down with
                | some nd =>
                    have hmd := cMeasure_push_down hnd
                    by_cases heqd : b.get cur = b.get nd
                    · simp only [if_pos heqd]
                      exact ⟨false, rfl⟩
                    · simp only [if_neg heqd]
                      apply ih
                      rw [qMeasure_append, qMeasure_cons, qMeasure_nil]
                      omega
                | none =>
                    apply ih
                    omega

/-- Soundness: a `true` answer means every cell reachable from the
queue passes the blank and equal-neighbour checks. -/
theorem overQueue_sound (b : Board) : ∀ (fuel : Nat) (Q : List Coordinate),
    overQueue b fuel Q = some true → ∀ q ∈ Q, ∀ c, Steps b q c → good b c := by
  intro fuel
  induction fuel with
  | zero => intro Q h; exact absurd h (by simp [overQueue])
  | succ f ih =>
      intro Q h q hq c hsteps
      cases Q with
      | nil => exact absurd hq (List.not_mem_nil q)
      | cons cur rest =>
          simp only [overQueue] at h
          by_cases hblank : b.get cur = some BLANK
          · rw [if_pos hblank] at h
            exact absurd (Option.some.inj h) (by simp)
          · rw [if_neg hblank] at h
            cases hnr : b.next cur Direction.right with
            | some nr =>
                simp only [hnr] at h
                by_cases heqr : b.get cur = b.get nr
                · rw [if_pos heqr] at h
                  exact absurd (Option.some.inj h) (by simp)
                · rw [if_neg heqr] at h
                  cases hnd : b.next cur Direction.down with
                  | some nd =>
                      simp only [hnd] at h
                      by_cases heqd : b.get cur = b.get nd
                      · rw [if_pos heqd] at h
                        exact absurd (Option.some.inj h) (by simp)
                      · rw [if_neg heqd] at h
                        have hgood : good b cur := by
                          refine ⟨hblank, ?_, ?_⟩
                          · intro nr' h'
                            rw [hnr] at h'
                            obtain rfl := Option.some.inj h'
                            exact heqr
                          · intro nd' h'
                            rw [hnd] at h'
                            obtain rfl := Option.some.inj h'
                            exact heqd
                        rcases List.mem_cons.1 hq with rfl | hqrest
                        · cases hsteps with
                          | refl => exact hgood
                          | right n hn hs =>
                              rw [hnr] at hn
                              obtain rfl := Option.some.inj hn
                              exact ih _ h nr (by simp) c hs
                          | down n hn hs =>
                              rw [hnd] at hn
                              obtain rfl := Option.some.inj hn
                              exact ih _ h nd (by simp) c hs
                        · exact ih _ h q (by simp [hqrest]) c hsteps
                  | none =>
                      simp only [hnd] at h
                      have hgood : good b cur := by
                        refine ⟨hblank, ?_, ?_⟩
                        · intro nr' h'
                          rw [hnr] at h'
                          obtain rfl := Option.some.inj h'
                          exact heqr
                        · intro nd' h'
                          rw [hnd] at h'
                          exact Option.noConfusion h'
                      rcases List.mem_cons.1 hq with rfl | hqrest
                      · cases hsteps with
                        | refl => exact hgood
                        | right n hn hs =>
                            rw [hnr] at hn
                            obtain rfl := Option.some.inj hn
                            exact ih _ h nr (by simp) c hs
                        | down n hn hs =>
                            rw [hnd] at hn
                            exact Option.noConfusion hn
                      · exact ih _ h q (by simp [hqrest]) c hsteps
            | none =>
                simp only [hnr] at h
                cases hnd : b.next cur Direction.down with
                | some nd =>
                    simp only [hnd] at h
                    by_cases heqd : b.get cur = b.get nd
                    · rw [if_pos heqd] at h
                      exact absurd (Option.some.inj h) (by simp)
                    · rw [if_neg heqd] at h
                      have hgood : good b cur := by
                        refine ⟨hblank, ?_, ?_⟩
                        · intro nr' h'
                          rw [hnr] at h'
                          exact Option.noConfusion h'
                        · intro nd' h'
                          rw [hnd] at h'
                          obtain rfl := Option.some.inj h'
                          exact heqd
                      rcases List.mem_cons.1 hq with rfl | hqrest
                      · cases hsteps with
                        | refl => exact hgood
                        | right n hn hs =>
                            rw [hnr] at hn
                            exact Option.noConfusion hn
                        | down n hn hs =>
                            rw [hnd] at hn
                            obtain rfl := Option.some.inj hn
                            exact ih _ h nd (by simp) c hs
                      · exact ih _ h q (by simp [hqrest]) c hsteps
                | none =>
                    simp only [hnd] at h
                    have hgood : good b cur := by
                      refine ⟨hblank, ?_, ?_⟩
                      · intro nr' h'
                        rw [hnr] at h'
                        exact Option.noConfusion h'
                      · intro nd' h'
                        rw [hnd] at h'
                        exact Option.noConfusion h'
                    rcases List.mem_cons.1 hq with rfl | hqrest
                    · cases hsteps with
                      | refl => exact hgood
                      | right n hn hs =>
                          rw [hnr] at hn
                          exact Option.noConfusion hn
                      | down n hn hs =>
                          rw [hnd] at hn
                          exact Option.noConfusion hn
                    · exact ih _ h q hqrest c hsteps

/-- Completeness: if every cell reachable from the queue passes the
checks, the worklist finishes with `true`. -/
theorem overQueue_complete (b : Board) : ∀ (fuel : Nat) (Q : List Coordinate),
    (∀ q ∈ Q, ∀ c, Steps b q c → good b c) →
    qMeasure b.size Q < fuel →
    overQueue b fuel Q = some true := by
  intro fuel
  induction fuel with
  | zero => intro Q _ hm; omega
  | succ f ih =>
      intro Q hQ hm
      cases Q with
      | nil => rfl
      | cons cur rest =>
          rw [qMeasure_cons] at hm
          have hcpos := cMeasure_pos b.size cur
          have hgood : good b cur := hQ cur (List.mem_cons_self cur rest) cur (Steps.refl cur)
          have hrest : ∀ q ∈ rest, ∀ c, Steps b q c → good b c :=
            fun q hq => hQ q (List.mem_cons_of_mem _ hq)
          simp only [overQueue]
          rw [if_neg hgood.1]
          cases hnr : b.next cur Direction.right with
          | some nr =>
              have hmr := cMeasure_push_right hnr
              have hnrgood : ∀ c, Steps b nr c → good b c :=
                fun c hs => hQ cur (List.mem_cons_self cur rest) c (Steps.right nr hnr hs)
              simp only [if_neg (hgood.2.1 nr hnr)]
              cases hnd : b.next cur Direction.down with
              | some nd =>
                  have hmd := cMeasure_push_down hnd
                  have hndgood : ∀ c, Steps b nd c → good b c :=
                    fun c hs => hQ cur (List.mem_cons_self cur rest) c (Steps.down nd hnd hs)
                  simp only [if_neg (hgood.2.2 nd hnd)]
                  apply ih
                  · intro q hq
                    rcases List.mem_append.1 hq with h1 | h2
                    · exact hrest q h1
                    · rcases List.mem_cons.1 h2 with rfl | h3
                      · exact hnrgood
                      · rw [List.mem_singleton] at h3
                        subst h3
                        exact hndgood
                  · rw [qMeasure_append, qMeasure_cons, qMeasure_cons, qMeasure_nil]
                    omega
              | none =>
                  apply ih
                  · intro q hq
                    rcases List.mem_append.1 hq with h1 | h2
                    · exact hrest q h1
                    · rw [List.mem_singleton] at h2
                      subst h2
                      exact hnrgood
                  · rw [qMeasure_append, qMeasure_cons, qMeasure_nil]
                    omega
          | none =>
              cases hnd : b.next cur Direction.down with
              | some nd =>
                  have hmd := cMeasure_push_down hnd
                  have hndgood : ∀ c, Steps b nd c → good b c :=
                    fun c hs => hQ cur (List.mem_cons_self cur rest) c (Steps.down nd hnd hs)
                  simp only [if_neg (hgood.2.2 nd hnd)]
                  apply ih
                  · intro q hq
                    rcases List.mem_append.1 hq with h1 | h2
                    · exact hrest q h1
                    · rw [List.mem_singleton] at h2
                      subst h2
                      exact hndgood
                  · rw [qMeasure_append, qMeasure_cons, qMeasure_nil]
                    omega
              | none =>
                  apply ih
                  · exact hrest
                  · omega

/-! ### The merge-once property (claim C1) -/

/-- The spec's merge-once rule, stated on the ghost merge list: the
destination cell of an earlier merge is never an operand (source or
destination cell) of a later merge of the same shift. -/
def MergeOnce (ms : List Merge) : Prop :=
  ∀ i < ms.length, ∀ j < ms.length, i < j →
    (ms.getD i ((0, 0), (0, 0), 0)).2.1 ≠ (ms.getD j ((0, 0), (0, 0), 0)).1 ∧
    (ms.getD i ((0, 0), (0, 0), 0)).2.1 ≠ (ms.getD j ((0, 0), (0, 0), 0)).2.1

instance (ms : List Merge) : Decidable (MergeOnce ms) := by
  unfold MergeOnce; infer_instance

/-! ### JSON snapshot model (claim C8) -/

/-- A JSON value; integers suffice for the `Board` schema. -/
inductive Json where
  | num (n : Int)
  | str (s : String)
  | arr (elems : List Json)
  | obj (fields : List (String × Json))

/-- Modelled from the spec: the serde-derived `Serialize` impl for
`Board` (the derive-macro expansion is not part of the repository
sources; the spec fixes the document shape).  Produces the JSON object
with fields `size`, `tiles` (array of rows), `score`. -/
def Board.toJson (b : Board) : Json :=
  Json.obj
    [("size", Json.num b.size),
     ("tiles", Json.arr (b.tiles.map fun row => Json.arr (row.map Json.num))),
     ("score", Json.num b.score)]

def jsonToNat : Json → Option Nat
  | .num n => if 0 ≤ n then some n.toNat else none
  | _ => none

def jsonToTile : Json → Option Int
  | .num n => some n
  | _ => none

def tilesFromJson : List Json → Option (List Int)
  | [] => some []
  | j :: js => do
      let t ← jsonToTile j
      let ts ← tilesFromJson js
      some (t :: ts)

def jsonToRow : Json → Option (List Int)
  | .arr xs => tilesFromJson xs
  | _ => none

def rowsFromJson : List Json → Option (List (List Int))
  | [] => some []
  | j :: js => do
      let r ← jsonToRow j
      let rs ← rowsFromJson js
      some (r :: rs)

/-- Modelled from the spec: the serde-derived `Deserialize` impl for
`Board` — reads the three named fields back. -/
def Board.fromJson (j : Json) : Option Board :=
  match j with
  | .obj fields => do
      let sj ← fields.lookup "size"
      let size ← jsonToNat sj
      let tj ← fields.lookup "tiles"
      let tiles ←
        match tj with
        | .arr rows => rowsFromJson rows
        | _ => none
      let scj ← fields.lookup "score"
      let score ← jsonToNat scj
      some { size := size, tiles := tiles, score := score }
  | _ => none

theorem tilesFromJson_map (r : List Int) :
    tilesFromJson (r.map Json.num) = some r := by
  induction r with
  | nil => rfl
  | cons x xs ih => simp [tilesFromJson, jsonToTile, ih]

theorem rowsFromJson_map (rows : List (List Int)) :
    rowsFromJson (rows.map fun r => Json.arr (r.map Json.num)) = some rows := by
  induction rows with
  | nil => rfl
  | cons r rs ih => simp [rowsFromJson, jsonToRow, tilesFromJson_map, ih]

/-! ### Claim theorems -/

/-- C1, counterexample: on the 3×3 board with first row `[2, 1, 1]`,
`shift Right` first merges the two `1`s into a `2` at `(0, 2)` and then
merges that freshly created tile with the `2` that has slid next to it:
the destination of the first merge is an operand of the second merge of
the same shift, refuting the merge-once claim. -/
theorem c1_counterexample :
    shift { size := 3, tiles := [[2, 1, 1], [0, 0, 0], [0, 0, 0]], score := 0 } Direction.right
      = some ({ size := 3, tiles := [[0, 0, 3], [0, 0, 0], [0, 0, 0]], score := 12 },
              [((0, 1), (0, 2)), ((0, 0), (0, 1)), ((0, 1), (0, 2))],
              [((0, 1), (0, 2), 1), ((0, 1), (0, 2), 2)])
    ∧ ¬ MergeOnce [((0, 1), (0, 2), 1), ((0, 1), (0, 2), 2)] :=
  ⟨rfl, by decide⟩

/-- C1, amended: a tile produced by a merge **can** be merged again in
the same shift — the walk continues from the merge destination and
chains further merges.  Witnessed by the row `[1, 1, 1, 1]`, which
`shift Right` collapses to the single tile `3` with three merges, the
destination of the first merge being an operand of the third. -/
theorem c1_amended_chain_merge :
    shift { size := 4, tiles := [[1, 1, 1, 1], [0, 0, 0, 0], [0, 0, 0, 0], [0, 0, 0, 0]], score := 0 }
        Direction.right
      = some ({ size := 4, tiles := [[0, 0, 0, 3], [0, 0, 0, 0], [0, 0, 0, 0], [0, 0, 0, 0]], score := 16 },
              [((0, 2), (0, 3)), ((0, 1), (0, 2)), ((0, 0), (0, 1)), ((0, 1), (0, 2)), ((0, 2), (0, 3))],
              [((0, 2), (0, 3), 1), ((0, 1), (0, 2), 1), ((0, 2), (0, 3), 2)])
    ∧ ¬ MergeOnce [((0, 2), (0, 3), 1), ((0, 1), (0, 2), 1), ((0, 2), (0, 3), 2)] :=
  ⟨rfl, by decide⟩

/-- C2: `is_game_over` answers (the worklist terminates), and answers
`true` exactly when every cell is non-zero and no two orthogonally
adjacent cells hold equal values — the traversal seeded at `(0, 0)`
reaches every cell and checks every adjacent pair. -/
theorem c2_is_game_over_iff (b : Board) (hwf : wellFormed b) (hsz : 2 ≤ b.size)
    (hnn : nonneg b) :
    (∃ r, is_game_over b = some r) ∧
    (is_game_over b = some true ↔
      ∀ i < b.size, ∀ j < b.size,
        b.get (i, j) ≠ some 0 ∧
        (j + 1 < b.size → b.get (i, j) ≠ b.get (i, j + 1)) ∧
        (i + 1 < b.size → b.get (i, j) ≠ b.get (i + 1, j))) := by
  have hfuel : qMeasure b.size [(0, 0)] < 3 ^ (2 * b.size) + 1 := by
    rw [qMeasure_cons, qMeasure_nil]
    have hle : cMeasure b.size (0, 0) ≤ 3 ^ (2 * b.size) := by
      unfold cMeasure
      exact Nat.pow_le_pow_right (by norm_num) (by omega)
    omega
  refine ⟨overQueue_total b _ _ hfuel, ?_, ?_⟩
  · intro htrue
    have hsound := overQueue_sound b _ _ htrue
    intro i hi j hj
    have hg : good b (i, j) :=
      hsound (0, 0) (by simp) (i, j) (steps_origin b (by simpa using hi) (by simpa using hj))
    obtain ⟨hb, hr, hd⟩ := hg
    refine ⟨hb, ?_, ?_⟩
    · intro hj1
      apply hr (i, j + 1)
      simp only [Board.next]
      rw [if_pos (by simpa using hj1)]
    · intro hi1
      apply hd (i + 1, j)
      simp only [Board.next]
      rw [if_pos (by simpa using hi1)]
  · intro hall
    apply overQueue_complete b _ _ _ hfuel
    intro q hq c hsteps
    rw [List.mem_singleton] at hq
    subst hq
    have hcB : inB b c := steps_inB b (0, 0) c hsteps ⟨by omega, by omega⟩
    obtain ⟨h1, h2, h3⟩ := hall c.1 hcB.1 c.2 hcB.2
    refine ⟨h1, ?_, ?_⟩
    · intro nr hnr
      simp only [Board.next] at hnr
      split at hnr
      · rename_i hg2
        obtain rfl := Option.some.inj hnr
        exact h2 hg2
      · exact Option.noConfusion hnr
    · intro nd hnd
      simp only [Board.next] at hnd
      split at hnd
      · rename_i hg3
        obtain rfl := Option.some.inj hnd
        exact h3 hg3
      · exact Option.noConfusion hnd

/-- C2, witness: a filled 2×2 board with no adjacent equal pair is
recognised as game over. -/
theorem c2_witness :
    is_game_over { size := 2, tiles := [[1, 2], [2, 1]], score := 0 } = some true :=
  (c2_is_game_over_iff _ (by decide) (by decide) (by decide)).2.mpr (by decide)

/-- C3: `shift` returns an empty trace list iff it left the board
(tiles and score) exactly as it was.  (Conditioned on the call
returning, which C5 shows always happens on game boards.) -/
theorem c3_empty_iff_unchanged (b : Board) (d : Direction) (hwf : wellFormed b)
    (b' : Board) (tr : List Trace) (ms : List Merge)
    (h : shift b d = some (b', tr, ms)) :
    tr = [] ↔ b'.tiles = b.tiles ∧ b'.score = b.score := by
  obtain ⟨-, hsz, -, ⟨nm, hnm, hsc, -⟩, -, -, ⟨nt, hnt, hdisj⟩⟩ :=
    shiftFold_spec d (sweep b.size d) b [] [] b' tr ms h hwf (fun c hc => sweep_mem hc)
  have hnt' : tr = nt := by simpa using hnt
  subst hnt'
  constructor
  · intro he
    rcases hdisj with ⟨-, rfl, -⟩ | ⟨hne, -⟩
    · exact ⟨rfl, rfl⟩
    · exact absurd he hne
  · rintro ⟨htl, hscr⟩
    rcases hdisj with ⟨h0, -, -⟩ | ⟨-, hlt⟩
    · exact h0
    · have heq : phi d b' = phi d b := phi_congr hsz htl
      omega

/-- C3, witness: a Left shift of a board whose only tile already sits
at the left edge is a no-op with an empty trace list. -/
theorem c3_witness :
    (([] : List Trace) = [] ↔
      ({ size := 2, tiles := [[1, 0], [0, 0]], score := 3 } : Board).tiles
          = ({ size := 2, tiles := [[1, 0], [0, 0]], score := 3 } : Board).tiles
        ∧ ({ size := 2, tiles := [[1, 0], [0, 0]], score := 3 } : Board).score
          = ({ size := 2, tiles := [[1, 0], [0, 0]], score := 3 } : Board).score) :=
  c3_empty_iff_unchanged { size := 2, tiles := [[1, 0], [0, 0]], score := 3 }
    Direction.left (by decide)
    { size := 2, tiles := [[1, 0], [0, 0]], score := 3 } [] [] rfl

/-- C4, counterexample: the claimed exact accounting
`score' = score + Σ 2^(v+1)` exceeds the source's 32-bit machine
types.  On the non-negative well-formed board `[[31, 31], [0, 0]]`
shift Left merges the two `31`s; `1u32 << 32` has its shift amount
masked to 0 (release profile; a debug build panics at this site), so
the program adds `1` to the score, not the claimed `2^32`. -/
theorem c4_counterexample :
    wellFormed { size := 2, tiles := [[31, 31], [0, 0]], score := 0 } ∧
    nonneg { size := 2, tiles := [[31, 31], [0, 0]], score := 0 } ∧
    shift { size := 2, tiles := [[31, 31], [0, 0]], score := 0 } Direction.left
      = some ({ size := 2, tiles := [[32, 0], [0, 0]], score := 1 },
          [((0, 1), (0, 0))], [((0, 1), (0, 0), 31)]) ∧
    ({ size := 2, tiles := [[32, 0], [0, 0]], score := 1 } : Board).score
      ≠ ({ size := 2, tiles := [[31, 31], [0, 0]], score := 0 } : Board).score
        + sumPow [((0, 1), (0, 0), 31)] :=
  ⟨by decide, by decide, rfl, by decide⟩

/-- C4 (amended): the score accounting of one shift with the source's
`u32` arithmetic made explicit.  On a well-formed non-negative board
whose score is a `u32` value, the final score is
`(score + Σ 2^((v+1) & 31)) mod 2^32` over the ghost merge list, each
merged value is at least 1, and a shift without merges leaves the
score exactly unchanged; whenever every merged value is at most 30 and
the `u32` addition cannot overflow, the spec's exact sum `Σ 2^(v+1)`
is recovered. -/
theorem c4_amended_score_mod (b : Board) (d : Direction)
    (hwf : wellFormed b) (hnn : nonneg b) (hu32 : b.score < 2 ^ 32)
    (b' : Board) (tr : List Trace) (ms : List Merge)
    (h : shift b d = some (b', tr, ms)) :
    b'.score = (b.score + sumGain ms) % 2 ^ 32 ∧
    (∀ m ∈ ms, 1 ≤ m.2.2) ∧
    (ms = [] → b'.score = b.score) ∧
    ((∀ m ∈ ms, m.2.2 ≤ 30) → b.score + sumPow ms < 2 ^ 32 →
      b'.score = b.score + sumPow ms) := by
  obtain ⟨-, -, -, ⟨nm, hnm, hmod, hemp, hne, hv⟩, -, -, -⟩ :=
    shiftFold_spec d (sweep b.size d) b [] [] b' tr ms h hwf (fun c hc => sweep_mem hc)
  have hnm' : ms = nm := by simpa using hnm
  subst hnm'
  have h1 : b'.score = (b.score + sumGain ms) % 2 ^ 32 := by
    by_cases h0 : ms = []
    · subst h0
      rw [hemp rfl, sumGain_nil, Nat.add_zero, Nat.mod_eq_of_lt hu32]
    · rw [← Nat.mod_eq_of_lt (hne h0), hmod]
  refine ⟨h1, hv hnn, hemp, fun h30 hsum => ?_⟩
  rw [h1, sumGain_eq_sumPow (hv hnn) h30, Nat.mod_eq_of_lt hsum]

/-- C4, witness: the repository's own test board shifted Right gains
`(2^2 + 2^2 + 2^3) mod 2^32 = 16` points over its three merges. -/
theorem c4_witness :
    ({ size := 4, tiles := [[0, 0, 0, 1], [0, 0, 1, 2], [0, 0, 0, 3], [0, 0, 0, 0]],
       score := 16 } : Board).score
      = (({ size := 4, tiles := [[1, 0, 0, 0], [1, 0, 1, 1], [1, 0, 1, 2], [0, 0, 0, 0]],
            score := 0 } : Board).score
          + sumGain [((1, 2), (1, 3), 1), ((2, 1), (2, 2), 1), ((2, 2), (2, 3), 2)]) % 2 ^ 32 :=
  (c4_amended_score_mod
    { size := 4, tiles := [[1, 0, 0, 0], [1, 0, 1, 1], [1, 0, 1, 2], [0, 0, 0, 0]], score := 0 }
    Direction.right (by decide) (by decide) (by decide)
    { size := 4, tiles := [[0, 0, 0, 1], [0, 0, 1, 2], [0, 0, 0, 3], [0, 0, 0, 0]], score := 16 }
    [((0, 0), (0, 3)), ((1, 2), (1, 3)), ((1, 0), (1, 2)),
     ((2, 0), (2, 1)), ((2, 1), (2, 2)), ((2, 2), (2, 3))]
    [((1, 2), (1, 3), 1), ((2, 1), (2, 2), 1), ((2, 2), (2, 3), 2)] rfl).1

/-- C5, counterexample: `shift` CAN fail on a well-formed board of
non-negative cells.  With two adjacent `i32::MAX` tiles the merge's
`tile_val + 1` overflows `i32`: a debug build panics on the add, a
release build wraps it to `-2^31` and `set`'s `value >= 0` assertion
panics — the program fails in both profiles, so the model returns
`none`. -/
theorem c5_counterexample :
    wellFormed { size := 2, tiles := [[2147483647, 2147483647], [0, 0]], score := 0 } ∧
    nonneg { size := 2, tiles := [[2147483647, 2147483647], [0, 0]], score := 0 } ∧
    shift { size := 2, tiles := [[2147483647, 2147483647], [0, 0]], score := 0 }
        Direction.left = none :=
  ⟨by decide, by decide, rfl⟩

/-- C5 (amended): on a well-formed board of non-negative cells small
enough that no chain of merges of one shift can reach `i32::MAX`
(value headroom `(size + 1) · size²` below `i32::MAX` — amply true of
every reachable game board, whose values stay below 20), `shift` never
fails: every assertion and index check passes (no `none` anywhere),
and afterwards the board is still a well-formed grid of non-negative
cells of the same size. -/
theorem c5_amended_shift_total (b : Board) (d : Direction) (V : Nat)
    (hwf : wellFormed b) (hnn : nonneg b) (hvb : valBound b V)
    (hV : V + (b.size + 1) * (b.size * b.size) ≤ 2147483647) :
    ∃ b' tr ms, shift b d = some (b', tr, ms) ∧
      wellFormed b' ∧ nonneg b' ∧ b'.size = b.size := by
  obtain ⟨⟨b', tr, ms⟩, hst⟩ :=
    shiftFold_total d (sweep b.size d) b [] [] V hwf hnn (fun c hc => sweep_mem hc)
      hvb (by rw [sweep_length]; exact hV)
  obtain ⟨hwf', hsz', hnn', -, -, -, -⟩ :=
    shiftFold_spec d (sweep b.size d) b [] [] b' tr ms hst hwf (fun c hc => sweep_mem hc)
  exact ⟨b', tr, ms, hst, hwf', hnn' hnn, hsz'⟩

/-- C5, witness at the repository's test board (values at most 2 and
`2 + 5 · 16 ≤ i32::MAX`), direction Down. -/
theorem c5_witness :
    ∃ b' tr ms,
      shift { size := 4, tiles := [[1, 0, 0, 0], [1, 0, 1, 1], [1, 0, 1, 2], [0, 0, 0, 0]],
              score := 0 } Direction.down = some (b', tr, ms) ∧
      wellFormed b' ∧ nonneg b' ∧
      b'.size = ({ size := 4, tiles := [[1, 0, 0, 0], [1, 0, 1, 1], [1, 0, 1, 2], [0, 0, 0, 0]],
                   score := 0 } : Board).size :=
  c5_amended_shift_total _ Direction.down 2 (by decide) (by decide) (by decide) (by decide)

/-- C9: every trace returned by `shift` stays inside one lane, is
displaced strictly toward the direction of the shift, has both
endpoints in bounds, and its endpoints differ. -/
theorem c9_trace_geometry (b : Board) (d : Direction) (hwf : wellFormed b)
    (b' : Board) (tr : List Trace) (ms : List Merge)
    (h : shift b d = some (b', tr, ms)) :
    ∀ t ∈ tr, t.1 ≠ t.2 ∧
      t.1.1 < b.size ∧ t.1.2 < b.size ∧ t.2.1 < b.size ∧ t.2.2 < b.size ∧
      (d = Direction.right → t.1.1 = t.2.1 ∧ t.1.2 < t.2.2) ∧
      (d = Direction.left → t.1.1 = t.2.1 ∧ t.2.2 < t.1.2) ∧
      (d = Direction.down → t.1.2 = t.2.2 ∧ t.1.1 < t.2.1) ∧
      (d = Direction.up → t.1.2 = t.2.2 ∧ t.2.1 < t.1.1) := by
  obtain ⟨-, -, -, -, htr, -, -⟩ :=
    shiftFold_spec d (sweep b.size d) b [] [] b' tr ms h hwf (fun c hc => sweep_mem hc)
  have hok : ∀ t ∈ tr, traceOk d b.size t :=
    htr (fun t ht => absurd ht (List.not_mem_nil t))
  intro t ht
  obtain ⟨ho, hp, h1, h2, h3, h4⟩ := hok t ht
  cases d with
  | right =>
      simp only [ortho] at ho
      simp only [prog] at hp
      exact ⟨fun he => by rw [he] at hp; exact lt_irrefl _ hp, h1, h2, h3, h4,
        fun _ => ⟨ho, hp⟩, fun hc => Direction.noConfusion hc,
        fun hc => Direction.noConfusion hc, fun hc => Direction.noConfusion hc⟩
  | left =>
      simp only [ortho] at ho
      simp only [prog] at hp
      have hlt : t.2.2 < t.1.2 := by omega
      exact ⟨fun he => by rw [he] at hlt; exact lt_irrefl _ hlt, h1, h2, h3, h4,
        fun hc => Direction.noConfusion hc, fun _ => ⟨ho, hlt⟩,
        fun hc => Direction.noConfusion hc, fun hc => Direction.noConfusion hc⟩
  | down =>
      simp only [ortho] at ho
      simp only [prog] at hp
      exact ⟨fun he => by rw [he] at hp; exact lt_irrefl _ hp, h1, h2, h3, h4,
        fun hc => Direction.noConfusion hc, fun hc => Direction.noConfusion hc,
        fun _ => ⟨ho, hp⟩, fun hc => Direction.noConfusion hc⟩
  | up =>
      simp only [ortho] at ho
      simp only [prog] at hp
      have hlt : t.2.1 < t.1.1 := by omega
      exact ⟨fun he => by rw [he] at hlt; exact lt_irrefl _ hlt, h1, h2, h3, h4,
        fun hc => Direction.noConfusion hc, fun hc => Direction.noConfusion hc,
        fun hc => Direction.noConfusion hc, fun _ => ⟨ho, hlt⟩⟩

/-- C9, witness: the coalesced trace `((0,0), (0,3))` of the test
board shifted Right stays in row 0, moves strictly right, and is in
bounds. -/
theorem c9_witness :
    (((0, 0), (0, 3)) : Trace).1 ≠ (((0, 0), (0, 3)) : Trace).2 ∧
    (((0, 0), (0, 3)) : Trace).1.1 < 4 ∧ (((0, 0), (0, 3)) : Trace).1.2 < 4 ∧
    (((0, 0), (0, 3)) : Trace).2.1 < 4 ∧ (((0, 0), (0, 3)) : Trace).2.2 < 4 ∧
    (Direction.right = Direction.right →
      (((0, 0), (0, 3)) : Trace).1.1 = (((0, 0), (0, 3)) : Trace).2.1 ∧
      (((0, 0), (0, 3)) : Trace).1.2 < (((0, 0), (0, 3)) : Trace).2.2) ∧
    (Direction.right = Direction.left →
      (((0, 0), (0, 3)) : Trace).1.1 = (((0, 0), (0, 3)) : Trace).2.1 ∧
      (((0, 0), (0, 3)) : Trace).2.2 < (((0, 0), (0, 3)) : Trace).1.2) ∧
    (Direction.right = Direction.down →
      (((0, 0), (0, 3)) : Trace).1.2 = (((0, 0), (0, 3)) : Trace).2.2 ∧
      (((0, 0), (0, 3)) : Trace).1.1 < (((0, 0), (0, 3)) : Trace).2.1) ∧
    (Direction.right = Direction.up →
      (((0, 0), (0, 3)) : Trace).1.2 = (((0, 0), (0, 3)) : Trace).2.2 ∧
      (((0, 0), (0, 3)) : Trace).2.1 < (((0, 0), (0, 3)) : Trace).1.1) :=
  c9_trace_geometry
    { size := 4, tiles := [[1, 0, 0, 0], [1, 0, 1, 1], [1, 0, 1, 2], [0, 0, 0, 0]], score := 0 }
    Direction.right (by decide)
    { size := 4, tiles := [[0, 0, 0, 1], [0, 0, 1, 2], [0, 0, 0, 3], [0, 0, 0, 0]], score := 16 }
    [((0, 0), (0, 3)), ((1, 2), (1, 3)), ((1, 0), (1, 2)),
     ((2, 0), (2, 1)), ((2, 1), (2, 2)), ((2, 2), (2, 3))]
    [((1, 2), (1, 3), 1), ((2, 1), (2, 2), 1), ((2, 2), (2, 3), 2)] rfl
    ((0, 0), (0, 3)) (by decide)

/-- C6, counterexample: `Board::new` with a flat vector whose length
(3) differs from `size * size` (4) is not fatal — it silently
constructs a board, with ragged tiles `[[1, 2], [3]]`. -/
theorem c6_counterexample :
    Board.new 2 (some [1, 2, 3]) 0 = some { size := 2, tiles := [[1, 2], [3]], score := 0 } := by
  rfl

/-- C6, amended: for every positive `size`, `Board::new` with a
supplied flat vector performs no length validation: it silently
constructs a board whose rows are the `size`-chunks of the vector, and
the result is a well-formed `size × size` grid iff the vector length
is exactly `size * size`. -/
theorem c6_new_no_validation (s : Nat) (data : List Int) (sc : Nat) (hs : 1 ≤ s) :
    ∃ b, Board.new s (some data) sc = some b ∧ b.size = s ∧ b.score = sc ∧
      b.tiles = chunks s data ∧ (wellFormed b ↔ data.length = s * s) := by
  have hs0 : s ≠ 0 := by omega
  refine ⟨{ size := s, tiles := chunks s data, score := sc },
    by simp [Board.new, hs0], rfl, rfl, rfl, ?_⟩
  constructor
  · rintro ⟨hlen, hrows⟩
    have hflat : (chunks s data).flatten = data :=
      chunksGo_flatten (s - 1) data.length data le_rfl
    have hcnt : (chunks s data).flatten.length = (chunks s data).length * s :=
      flatten_length_const s _ (fun r hr => hrows r hr)
    rw [hflat] at hcnt
    simp only [wellFormed] at hlen
    rw [hcnt, hlen]
  · intro hlen
    obtain ⟨hl, hr⟩ :=
      chunksGo_shape s hs s data.length data (by omega) le_rfl
    exact ⟨hl, hr⟩

/-- C6, witness for the amended claim at `size = 2`,
`data = [1, 2, 3]`: construction succeeds and the board is not a
well-formed grid since `3 ≠ 4`. -/
theorem c6_witness :
    ∃ b, Board.new 2 (some [1, 2, 3]) 0 = some b ∧ b.size = 2 ∧ b.score = 0 ∧
      b.tiles = chunks 2 [1, 2, 3] ∧ (wellFormed b ↔ ([1, 2, 3] : List Int).length = 2 * 2) :=
  c6_new_no_validation 2 [1, 2, 3] 0 (by decide)

/-- C7: on a 4×4 board whose row `r` is `[0, 0, 0, 2]` and all other
cells 0, `shift Left` moves the tile to `[2, 0, 0, 0]`, leaves every
other cell 0 and the score unchanged, and returns exactly the single
coalesced trace `((r, 3), (r, 0))` (not three one-step traces). -/
theorem c7_left_single_trace (s r : Nat) (hr : r < 4) :
    shift { size := 4,
            tiles := (List.range 4).map fun i =>
              if i = r then ([0, 0, 0, 2] : List Int) else [0, 0, 0, 0],
            score := s } Direction.left
      = some ({ size := 4,
                tiles := (List.range 4).map fun i =>
                  if i = r then ([2, 0, 0, 0] : List Int) else [0, 0, 0, 0],
                score := s },
              [((r, 3), (r, 0))], []) := by
  interval_cases r <;> rfl

/-- C7, witness at `r = 2` with initial score 7. -/
theorem c7_witness :
    shift { size := 4,
            tiles := (List.range 4).map fun i =>
              if i = 2 then ([0, 0, 0, 2] : List Int) else [0, 0, 0, 0],
            score := 7 } Direction.left
      = some ({ size := 4,
                tiles := (List.range 4).map fun i =>
                  if i = 2 then ([2, 0, 0, 0] : List Int) else [0, 0, 0, 0],
                score := 7 },
              [((2, 3), (2, 0))], []) :=
  c7_left_single_trace 7 2 (by decide)

/-- C8: serializing a well-formed board to JSON and deserializing the
result yields the same board, and the document is the object with
fields `size`, `tiles` (an array of `size` arrays of `size` integers)
and `score`. -/
theorem c8_json_roundtrip (b : Board) (hwf : wellFormed b) :
    Board.fromJson (Board.toJson b) = some b ∧
    Board.toJson b = Json.obj
      [("size", Json.num b.size),
       ("tiles", Json.arr (b.tiles.map fun row => Json.arr (row.map Json.num))),
       ("score", Json.num b.score)] ∧
    (b.tiles.map fun row => Json.arr (row.map Json.num)).length = b.size ∧
    (∀ row ∈ b.tiles, (row.map Json.num).length = b.size) := by
  refine ⟨?_, rfl, by simpa using hwf.1, fun row hr => by simpa using hwf.2 row hr⟩
  simp [Board.toJson, Board.fromJson, List.lookup, rowsFromJson_map, jsonToNat]

/-- C8, witness at the concrete board `⟨2, [[1, 2], [3, 4]], 5⟩`. -/
theorem c8_witness :
    Board.fromJson (Board.toJson { size := 2, tiles := [[1, 2], [3, 4]], score := 5 })
      = some { size := 2, tiles := [[1, 2], [3, 4]], score := 5 } :=
  (c8_json_roundtrip _ (by decide)).1

/-- C10: `shift` is deterministic — it is a pure function of the board
fields and the direction (the embedding draws no randomness, matching
the source, whose `shift` never touches the RNG): two runs on equal
boards with the same direction give identical boards, traces and merge
lists. -/
theorem c10_shift_deterministic (b₁ b₂ : Board) (d : Direction)
    (hs : b₁.size = b₂.size) (ht : b₁.tiles = b₂.tiles) (hsc : b₁.score = b₂.score) :
    shift b₁ d = shift b₂ d := by
  obtain ⟨s₁, t₁, c₁⟩ := b₁
  obtain ⟨s₂, t₂, c₂⟩ := b₂
  simp only at hs ht hsc
  subst hs; subst ht; subst hsc
  rfl

/-- C10, witness: two syntactically separate but equal boards. -/
theorem c10_witness :
    shift { size := 2, tiles := [[1, 0], [0, 0]], score := 0 } Direction.left
      = shift { size := 2, tiles := [[1, 0], [0, 0]], score := 0 } Direction.left :=
  c10_shift_deterministic _ _ _ rfl rfl rfl

end R2048
